import Mathlib

set_option maxRecDepth 100000

/-!
A verification development for a streaming MD5 implementation consisting of
a generic buffered block algorithm (`BufferedBlockAlgorithm`), the MD5
transform (`MD5.doReset` / `MD5.doProcessBlock` / `MD5.doFinalize`) and a
thin hasher facade (`Hasher.reset` / `Hasher.update` / `Hasher.finalize`).

32-bit machine words are embedded as `Nat` values holding the unsigned
bit pattern; JavaScript's `ToInt32`/`ToUint32` coercions become `% 2^32`.
The JavaScript growable word array becomes a `List Nat` where reading an
out-of-range index yields `0` (JS `undefined` coerces to `0` under the
bitwise operators used by the code) and writing past the end extends the
list with zeros, exactly matching JS array-extension semantics.
-/

/-- Read word `i` of a JS array: out-of-range reads give 0 (JS `undefined`
coerces to 0 under the bitwise operators the code applies to every read). -/
def getW (ws : List Nat) (i : Nat) : Nat := ws.getD i 0

/-- Write word `i` of a JS array: in-range writes replace the word,
writing at or past the end extends the array with zeros up to index `i`,
as JS assignment does (see `setW_eq` for the closed form). -/
def setW : List Nat → Nat → Nat → List Nat
  | [], 0, v => [v]
  | [], i + 1, v => 0 :: setW [] i v
  | _ :: ws, 0, v => v :: ws
  | w :: ws, i + 1, v => w :: setW ws i v

/-- The endian swap applied by `MD5.doProcessBlock` (src/lib/MD5Hasher.js
lines 32-34) and repeated verbatim at lines 140-145 and 156-158:
`(((x << 8) | (x >>> 24)) & 0x00ff00ff) | (((x << 24) | (x >>> 8)) & 0xff00ff00)`.
JS shifts first coerce their operand to 32 bits, hence the leading `% 2^32`. -/
def swap32 (x : Nat) : Nat :=
  let y := x % 4294967296
  ((((y * 256) % 4294967296) ||| (y / 16777216)) &&& 0x00ff00ff) |||
    ((((y * 16777216) % 4294967296) ||| (y / 256)) &&& 0xff00ff00)

/-- The MD5 round-constant table (src/lib/MD5Hasher.js lines 6-10).
Modelled from the spec: the source computes `T[i] = (Math.abs(Math.sin(i + 1)) * 0x100000000) | 0`
at load time with double-precision floating point; the table is embedded
here as its 64 constant unsigned 32-bit values (the spec's design notes
recommend exactly this form). -/
def T : List Nat :=
  [0xd76aa478, 0xe8c7b756, 0x242070db, 0xc1bdceee,
   0xf57c0faf, 0x4787c62a, 0xa8304613, 0xfd469501,
   0x698098d8, 0x8b44f7af, 0xffff5bb1, 0x895cd7be,
   0x6b901122, 0xfd987193, 0xa679438e, 0x49b40821,
   0xf61e2562, 0xc040b340, 0x265e5a51, 0xe9b6c7aa,
   0xd62f105d, 0x02441453, 0xd8a1e681, 0xe7d3fbc8,
   0x21e1cde6, 0xc33707d6, 0xf4d50d87, 0x455a14ed,
   0xa9e3e905, 0xfcefa3f8, 0x676f02d9, 0x8d2a4c8a,
   0xfffa3942, 0x8771f681, 0x6d9d6122, 0xfde5380c,
   0xa4beea44, 0x4bdecfa9, 0xf6bb4b60, 0xbebfbc70,
   0x289b7ec6, 0xeaa127fa, 0xd4ef3085, 0x04881d05,
   0xd9d4d039, 0xe6db99e5, 0x1fa27cf8, 0xc4ac5665,
   0xf4292244, 0x432aff97, 0xab9423a7, 0xfc93a039,
   0x655b59c3, 0x8f0ccc92, 0xffeff47d, 0x85845dd1,
   0x6fa87e4f, 0xfe2ce6e0, 0xa3014314, 0x4e0811a1,
   0xf7537e82, 0xbd3af235, 0x2ad7d2bb, 0xeb86d391]

/-- Rotate left by `s` of the (coerced) low 32 bits, as JS
`(n << s) | (n >>> (32 - s))` on a possibly unreduced sum `n`. -/
def rotl (n s : Nat) : Nat :=
  (((n % 4294967296) * 2 ^ s) % 4294967296) ||| ((n % 4294967296) / 2 ^ (32 - s))

/-- Modelled from the spec: round helper `FF` of `MD5Utils` (required by
src/lib/MD5Hasher.js but not under src/). Spec 4.2 pass 1:
`a' = b + rotl(a + F(b,c,d) + x + t, s)` with `F(x,y,z) = (x AND y) OR (NOT x AND z)`;
all bitwise operators act on the 32-bit patterns, the additions are exact. -/
def FF (a b c d x s t : Nat) : Nat :=
  let n := a + (((b % 4294967296) &&& (c % 4294967296)) |||
    (((b % 4294967296) ^^^ 0xffffffff) &&& (d % 4294967296))) + x + t
  rotl n s + b

/-- Modelled from the spec: round helper `GG` of `MD5Utils`. Spec 4.2 pass 2:
`G(x,y,z) = (x AND z) OR (y AND NOT z)`. -/
def GG (a b c d x s t : Nat) : Nat :=
  let n := a + (((b % 4294967296) &&& (d % 4294967296)) |||
    ((c % 4294967296) &&& ((d % 4294967296) ^^^ 0xffffffff))) + x + t
  rotl n s + b

/-- Modelled from the spec: round helper `HH` of `MD5Utils`. Spec 4.2 pass 3:
`H(x,y,z) = x XOR y XOR z`. -/
def HH (a b c d x s t : Nat) : Nat :=
  let n := a + ((b % 4294967296) ^^^ (c % 4294967296) ^^^ (d % 4294967296)) + x + t
  rotl n s + b

/-- Modelled from the spec: round helper `II` of `MD5Utils`. Spec 4.2 pass 4:
`I(x,y,z) = y XOR (x OR NOT z)`. -/
def II (a b c d x s t : Nat) : Nat :=
  let n := a + ((c % 4294967296) ^^^
    ((b % 4294967296) ||| ((d % 4294967296) ^^^ 0xffffffff))) + x + t
  rotl n s + b

/-- The 64 MD5 rounds of `MD5.doProcessBlock` (src/lib/MD5Hasher.js lines
36-128), after the endian swap: `m i` is the already-swapped message word
`M[offset + i]`, `Hs` the running hash; returns the updated 4-word hash
`H[i] = (H[i] + v) | 0`. -/
def rounds (m : Nat → Nat) (Hs : List Nat) : List Nat :=
  let a := getW Hs 0
  let b := getW Hs 1
  let c := getW Hs 2
  let d := getW Hs 3
  let a := FF a b c d (m 0) 7 (getW T 0)
  let d := FF d a b c (m 1) 12 (getW T 1)
  let c := FF c d a b (m 2) 17 (getW T 2)
  let b := FF b c d a (m 3) 22 (getW T 3)
  let a := FF a b c d (m 4) 7 (getW T 4)
  let d := FF d a b c (m 5) 12 (getW T 5)
  let c := FF c d a b (m 6) 17 (getW T 6)
  let b := FF b c d a (m 7) 22 (getW T 7)
  let a := FF a b c d (m 8) 7 (getW T 8)
  let d := FF d a b c (m 9) 12 (getW T 9)
  let c := FF c d a b (m 10) 17 (getW T 10)
  let b := FF b c d a (m 11) 22 (getW T 11)
  let a := FF a b c d (m 12) 7 (getW T 12)
  let d := FF d a b c (m 13) 12 (getW T 13)
  let c := FF c d a b (m 14) 17 (getW T 14)
  let b := FF b c d a (m 15) 22 (getW T 15)
  let a := GG a b c d (m 1) 5 (getW T 16)
  let d := GG d a b c (m 6) 9 (getW T 17)
  let c := GG c d a b (m 11) 14 (getW T 18)
  let b := GG b c d a (m 0) 20 (getW T 19)
  let a := GG a b c d (m 5) 5 (getW T 20)
  let d := GG d a b c (m 10) 9 (getW T 21)
  let c := GG c d a b (m 15) 14 (getW T 22)
  let b := GG b c d a (m 4) 20 (getW T 23)
  let a := GG a b c d (m 9) 5 (getW T 24)
  let d := GG d a b c (m 14) 9 (getW T 25)
  let c := GG c d a b (m 3) 14 (getW T 26)
  let b := GG b c d a (m 8) 20 (getW T 27)
  let a := GG a b c d (m 13) 5 (getW T 28)
  let d := GG d a b c (m 2) 9 (getW T 29)
  let c := GG c d a b (m 7) 14 (getW T 30)
  let b := GG b c d a (m 12) 20 (getW T 31)
  let a := HH a b c d (m 5) 4 (getW T 32)
  let d := HH d a b c (m 8) 11 (getW T 33)
  let c := HH c d a b (m 11) 16 (getW T 34)
  let b := HH b c d a (m 14) 23 (getW T 35)
  let a := HH a b c d (m 1) 4 (getW T 36)
  let d := HH d a b c (m 4) 11 (getW T 37)
  let c := HH c d a b (m 7) 16 (getW T 38)
  let b := HH b c d a (m 10) 23 (getW T 39)
  let a := HH a b c d (m 13) 4 (getW T 40)
  let d := HH d a b c (m 0) 11 (getW T 41)
  let c := HH c d a b (m 3) 16 (getW T 42)
  let b := HH b c d a (m 6) 23 (getW T 43)
  let a := HH a b c d (m 9) 4 (getW T 44)
  let d := HH d a b c (m 12) 11 (getW T 45)
  let c := HH c d a b (m 15) 16 (getW T 46)
  let b := HH b c d a (m 2) 23 (getW T 47)
  let a := II a b c d (m 0) 6 (getW T 48)
  let d := II d a b c (m 7) 10 (getW T 49)
  let c := II c d a b (m 14) 15 (getW T 50)
  let b := II b c d a (m 5) 21 (getW T 51)
  let a := II a b c d (m 12) 6 (getW T 52)
  let d := II d a b c (m 3) 10 (getW T 53)
  let c := II c d a b (m 10) 15 (getW T 54)
  let b := II b c d a (m 1) 21 (getW T 55)
  let a := II a b c d (m 8) 6 (getW T 56)
  let d := II d a b c (m 15) 10 (getW T 57)
  let c := II c d a b (m 6) 15 (getW T 58)
  let b := II b c d a (m 13) 21 (getW T 59)
  let a := II a b c d (m 4) 6 (getW T 60)
  let d := II d a b c (m 11) 10 (getW T 61)
  let c := II c d a b (m 2) 15 (getW T 62)
  let b := II b c d a (m 9) 21 (getW T 63)
  [(getW Hs 0 + a) % 4294967296, (getW Hs 1 + b) % 4294967296,
   (getW Hs 2 + c) % 4294967296, (getW Hs 3 + d) % 4294967296]

/-- One step of the in-place endian-swap loop of `MD5.doProcessBlock`
(src/lib/MD5Hasher.js lines 28-35): `M[j] = swap32(M[j])`. -/
def swapStep (M : List Nat) (j : Nat) : List Nat := setW M j (swap32 (getW M j))

/-- The first `n` iterations of the endian-swap loop, swapping
`M[offset] .. M[offset + n - 1]` in place. -/
def swapRangeN (M : List Nat) (offset : Nat) : Nat → List Nat
  | 0 => M
  | n + 1 => swapStep (swapRangeN M offset n) (offset + n)

/-- The compression step `MD5.doProcessBlock(M, offset)` (src/lib/MD5Hasher.js lines 26-129):
endian-swaps the 16 words `M[offset] .. M[offset+15]` in place, then runs
the 64 rounds on the swapped words, updating the 4-word hash. Returns the
mutated word array together with the new hash. -/
def MD5.doProcessBlock (M : List Nat) (offset : Nat) (Hs : List Nat) :
    List Nat × List Nat :=
  let M2 := swapRangeN M offset 16
  (M2, rounds (fun i => getW M2 (offset + i)) Hs)

/-- Modelled from the spec: the `WordSequence` container (`WordArray`,
required by the sources but not under src/): an ordered sequence of 32-bit
words together with an exact significant-byte count; byte `i` (big-endian
within each word) lives in word `i >> 2` at bit offset `24 - 8*(i mod 4)`. -/
structure WordArray where
  words : List Nat
  sigBytes : Nat
deriving DecidableEq

/-- One big-endian word from four byte values (each taken mod 256), packing
byte `t` at bit offset `24 - 8 t` as the sources do. -/
def packW (b0 b1 b2 b3 : Nat) : Nat :=
  (b0 % 256) * 16777216 + (b1 % 256) * 65536 + (b2 % 256) * 256 + b3 % 256

/-- Big-endian packing of a byte list into words: byte `i` goes to word
`i / 4` at bit offset `24 - 8 * (i % 4)` (spec 3; the packing performed by
`BufferedBlockAlgorithm._parse`). -/
def packBytes : List Nat → List Nat
  | b0 :: b1 :: b2 :: b3 :: t => packW b0 b1 b2 b3 :: packBytes t
  | [] => []
  | [b0] => [packW b0 0 0 0]
  | [b0, b1] => [packW b0 b1 0 0]
  | [b0, b1, b2] => [packW b0 b1 b2 0]

/-- Byte `i` of a word sequence, big-endian within each word (spec 3). -/
def readByteW (wa : WordArray) (i : Nat) : Nat :=
  getW wa.words (i / 4) / 2 ^ ((3 - i % 4) * 8) % 256

/-- The significant bytes of a word sequence, in order. -/
def bytesOf (wa : WordArray) : List Nat :=
  (List.range wa.sigBytes).map (readByteW wa)

/-- Modelled from the spec: `WordArray.concat` (not under src/), spec 6:
append another sequence onto this one "with correct partial-word merge
semantics", i.e. the significant bytes of the result are the significant
bytes of the first followed by those of the second, repacked big-endian,
and `sigBytes` is extended precisely. -/
def WordArray.concat (a b : WordArray) : WordArray :=
  ⟨packBytes (bytesOf a ++ bytesOf b), a.sigBytes + b.sigBytes⟩

/-- One iteration of the `_parse` packing loop
(src/unnamed/part_000 lines 33-36):
`words[i >>> 2] |= (charCode & 0xff) << (24 - (i % 4) * 8)`. -/
def parseStep (ws : List Nat) (i b : Nat) : List Nat :=
  setW ws (i / 4) (getW ws (i / 4) ||| ((b &&& 0xff) * 2 ^ (24 - i % 4 * 8)))

/-- The `_parse` loop of `BufferedBlockAlgorithm` (src/unnamed/part_000
lines 28-38), iterating `parseStep` over the code units starting at
position `i`. -/
def parseAux (ws : List Nat) (i : Nat) : List Nat → List Nat
  | [] => ws
  | b :: rest => parseAux (parseStep ws i b) (i + 1) rest

/-- The packing entry point `BufferedBlockAlgorithm._parse(latin1Str)`: packs a sequence of code
units (here: the bytes of the message) into a `WordArray` with
`sigBytes = length`. -/
def BufferedBlockAlgorithm._parse (s : List Nat) : WordArray :=
  ⟨parseAux [] 0 s, s.length⟩

/-- The state of a `BufferedBlockAlgorithm` (src/unnamed/part_000):
`_data` and `_nDataBytes` as set up by `reset`, plus the configuration
fields `blockSize` (default 16) and `_minBufferSize` (0) set by the
constructor. -/
structure BufferedBlockAlgorithm where
  _data : WordArray
  _nDataBytes : Nat
  blockSize : Nat
  _minBufferSize : Nat
deriving DecidableEq

/-- The buffer reset `BufferedBlockAlgorithm.reset()` (src/unnamed/part_000 lines 23-27):
fresh empty `_data`, `_nDataBytes = 0`; the configuration fields are
untouched. -/
def BufferedBlockAlgorithm.reset (b : BufferedBlockAlgorithm) :
    BufferedBlockAlgorithm :=
  { b with _data := ⟨[], 0⟩, _nDataBytes := 0 }

/-- The buffer append `BufferedBlockAlgorithm.append(data)` (src/unnamed/part_000 lines 49-57)
for an already-converted `WordArray` argument: concatenate onto `_data` and
add the appended `sigBytes` to `_nDataBytes`. (String arguments reach this
point through `_parse`.) -/
def BufferedBlockAlgorithm.append (b : BufferedBlockAlgorithm) (d : WordArray) :
    BufferedBlockAlgorithm :=
  { b with _data := b._data.concat d, _nDataBytes := b._nDataBytes + d.sigBytes }

/-- The `nBlocksReady` computation of `BufferedBlockAlgorithm.process`
(src/unnamed/part_000 lines 80-91): `ceil` when flushing, otherwise
`floor` minus `_minBufferSize` clamped at zero (`Math.max(x, 0)` is `Nat`
subtraction here). With `blockSizeBytes = 0` JS produces `Infinity`/`NaN`
and processes nothing; `Nat` division by zero gives 0, the same outcome. -/
def nBlocksReady (doFlush : Bool) (dataSigBytes blockSizeBytes minBufferSize : Nat) : Nat :=
  if doFlush then (dataSigBytes + blockSizeBytes - 1) / blockSizeBytes
  else dataSigBytes / blockSizeBytes - minBufferSize

/-- The block-processing loop of `process` (src/unnamed/part_000 lines
97-101): `for (offset = 0; offset < nWordsReady; offset += blockSize)
hasher.doProcessBlock(dataWords, offset)`, i.e. `nBlocksReady` calls at
offsets `0, blockSize, ...`, threading the mutated word array and hash. -/
def processBlocks (bs : Nat) (M Hs : List Nat) (offset : Nat) :
    Nat → List Nat × List Nat
  | 0 => (M, Hs)
  | k + 1 =>
    processBlocks bs (MD5.doProcessBlock M offset Hs).1
      (MD5.doProcessBlock M offset Hs).2 (offset + bs) k

/-- The result of `BufferedBlockAlgorithm.process`: the mutated buffer, the
hasher's mutated hash, and the returned `WordArray` of processed words. -/
structure ProcessOut where
  buf : BufferedBlockAlgorithm
  hash : List Nat
  ret : WordArray
deriving DecidableEq

/-- The core method `BufferedBlockAlgorithm.process(doFlush, hasher)` (src/unnamed/part_000
lines 72-108): count ready blocks, run the per-block loop, splice the
processed words off the front of `_data`, decrement `sigBytes` by the bytes
consumed, and return the processed words as a `WordArray`. -/
def BufferedBlockAlgorithm.process (doFlush : Bool)
    (b : BufferedBlockAlgorithm) (Hs : List Nat) : ProcessOut :=
  let dataWords := b._data.words
  let dataSigBytes := b._data.sigBytes
  let blockSizeBytes := b.blockSize * 4
  let nBlocks := nBlocksReady doFlush dataSigBytes blockSizeBytes b._minBufferSize
  let nWordsReady := nBlocks * b.blockSize
  let nBytesReady := min (nWordsReady * 4) dataSigBytes
  if nWordsReady ≠ 0 then
    let r := processBlocks b.blockSize dataWords Hs 0 nBlocks
    ⟨{ b with _data := ⟨r.1.drop nWordsReady, dataSigBytes - nBytesReady⟩ },
      r.2, ⟨r.1.take nWordsReady, nBytesReady⟩⟩
  else
    ⟨b, Hs, ⟨[], nBytesReady⟩⟩

/-- The transform reset `MD5.doReset()` (src/lib/MD5Hasher.js lines 18-25): the four magic
constants; the hash `WordArray` has `sigBytes = 16` throughout. -/
def MD5.doReset : List Nat := [0x67452301, 0xefcdab89, 0x98badcfe, 0x10325476]

/-- The padding steps of `MD5.doFinalize` (src/lib/MD5Hasher.js lines
130-146): OR the 0x80 pad bit into the word at index `nBitsLeft >>> 5`,
write the endian-swapped 64-bit total length into word slots 14 and 15 of
the block at index `(nBitsLeft + 64) >>> 9` (slot 15 first, as in the
source), then set `sigBytes = (words.length + 1) * 4`. The JS `>>> 5` and
`>>> 9` shifts coerce their operand with ToUint32 first, so both index
computations wrap `nBitsLeft` modulo 2^32 — observable once the buffered
byte count reaches 2^29 (JS `%` on number operands of this size is exact,
so `nBitsLeft % 32` does not wrap). -/
def MD5.padData (data : WordArray) (nDataBytes : Nat) : WordArray :=
  let nBitsTotal := nDataBytes * 8
  let nBitsLeft := data.sigBytes * 8
  let w1 := setW data.words (nBitsLeft % 4294967296 / 32)
    (getW data.words (nBitsLeft % 4294967296 / 32) ||| (0x80 * 2 ^ (24 - nBitsLeft % 32)))
  let nBitsTotalH := nBitsTotal / 4294967296
  let nBitsTotalL := nBitsTotal
  let w2 := setW w1 ((nBitsLeft + 64) % 4294967296 / 512 * 16 + 15) (swap32 nBitsTotalH)
  let w3 := setW w2 ((nBitsLeft + 64) % 4294967296 / 512 * 16 + 14) (swap32 nBitsTotalL)
  ⟨w3, (w3.length + 1) * 4⟩

/-- The final in-place endian swap of the four hash words
(src/lib/MD5Hasher.js lines 152-159). -/
def digestSwap (Hs : List Nat) : List Nat :=
  [swap32 (getW Hs 0), swap32 (getW Hs 1), swap32 (getW Hs 2), swap32 (getW Hs 3)]

/-- The finalization `MD5.doFinalize()` (src/lib/MD5Hasher.js lines 130-162): pad, process
the final blocks with `process(false, this)` (the inflated `sigBytes` makes
the floor count cover every padded block), endian-swap the four hash words
in place, and return the hash `WordArray` (16 bytes) as the digest. -/
def MD5.doFinalize (buf : BufferedBlockAlgorithm) (Hs : List Nat) :
    (BufferedBlockAlgorithm × List Nat) × WordArray :=
  let data2 := MD5.padData buf._data buf._nDataBytes
  let o := BufferedBlockAlgorithm.process false { buf with _data := data2 } Hs
  let Hsw := digestSwap o.hash
  ((o.buf, Hsw), ⟨Hsw, 16⟩)

/-- The state owned by a `Hasher` (src/lib/Hasher.js): its buffer and the
MD5 transform's running hash (the `Hasher` and its `MD5` share the same
buffer object, so one buffer field suffices). -/
structure HasherState where
  buffer : BufferedBlockAlgorithm
  hash : List Nat
deriving DecidableEq

/-- The facade reset `Hasher.reset()` (src/lib/Hasher.js lines 32-37): reset the buffer and
run `MD5.doReset`. -/
def Hasher.reset (st : HasherState) : HasherState :=
  ⟨st.buffer.reset, MD5.doReset⟩

/-- A newly constructed hasher (src/lib/Hasher.js lines 19-24): fresh
`BufferedBlockAlgorithm` with the default `blockSize = 512/32 = 16` and
`_minBufferSize = 0`, then `reset()`. -/
def newHasher : HasherState :=
  Hasher.reset ⟨⟨⟨[], 0⟩, 0, 16, 0⟩, []⟩

/-- The facade update `Hasher.update(messageUpdate)` (src/lib/Hasher.js lines 50-57) on a
byte-sequence message (string messages are packed by `_parse` first):
append, then `process(false)`. -/
def Hasher.update (st : HasherState) (s : List Nat) : HasherState :=
  let b1 := st.buffer.append (BufferedBlockAlgorithm._parse s)
  let o := BufferedBlockAlgorithm.process false b1 st.hash
  ⟨o.buf, o.hash⟩

/-- The facade finalization `Hasher.finalize(messageUpdate?)` (src/lib/Hasher.js lines 72-80):
optional final append, then `MD5.doFinalize`; returns the mutated state and
the 16-byte digest. -/
def Hasher.finalize (st : HasherState) (o : Option (List Nat)) :
    HasherState × WordArray :=
  let st1 : HasherState :=
    match o with
    | some s => ⟨st.buffer.append (BufferedBlockAlgorithm._parse s), st.hash⟩
    | none => st
  let r := MD5.doFinalize st1.buffer st1.hash
  (⟨r.1.1, r.1.2⟩, r.2)

/-- The digest of a whole byte sequence hashed in one `finalize` call on a
fresh hasher, as its 16-byte big-endian byte sequence. -/
def md5Bytes (s : List Nat) : List Nat :=
  bytesOf (Hasher.finalize newHasher (some s)).2

/-- The byte sequence of the ASCII text
"The quick brown fox jumps over the lazy dog". -/
def foxBytes : List Nat :=
  [84, 104, 101, 32, 113, 117, 105, 99, 107, 32, 98, 114, 111, 119, 110, 32,
   102, 111, 120, 32, 106, 117, 109, 112, 115, 32, 111, 118, 101, 114, 32,
   116, 104, 101, 32, 108, 97, 122, 121, 32, 100, 111, 103]

/-- A 2^29-byte message: a single 1 byte followed by zeros. Its bit
length is `8 * 2^29 = 2^32`, which the ToUint32 coercions inside the
padding index computations of `MD5.padData` wrap to 0. -/
def bigMsg : List Nat := 1 :: List.replicate 536870911 0

/-- A second, spec-following variant of `MD5.doFinalize`, written from the
spec's words for claim comparison: identical to `MD5.doFinalize` except
that the final drain is `buffer.process(flush = true, this)`, as spec 4.2
step 5 asserts the code does. -/
def MD5.doFinalizeFlushTrue (buf : BufferedBlockAlgorithm) (Hs : List Nat) :
    (BufferedBlockAlgorithm × List Nat) × WordArray :=
  let data2 := MD5.padData buf._data buf._nDataBytes
  let o := BufferedBlockAlgorithm.process true { buf with _data := data2 } Hs
  let Hsw := digestSwap o.hash
  ((o.buf, Hsw), ⟨Hsw, 16⟩)

/-- The `WordSequence` invariant of spec 3: the significant byte count
never exceeds the capacity of the word list. -/
abbrev waInv (wa : WordArray) : Prop := wa.sigBytes ≤ 4 * wa.words.length

/-- An observable operation on a hasher instance: an `update` or a
`finalize` (whose digest is discarded, keeping the mutated state). -/
inductive HOp where
  | upd (s : List Nat)
  | fin (o : Option (List Nat))

/-- Apply one facade operation to a hasher state. -/
def applyOp (st : HasherState) : HOp → HasherState
  | .upd s => Hasher.update st s
  | .fin o => (Hasher.finalize st o).1

/-- Apply a sequence of facade operations to a hasher state. -/
def applyOps (st : HasherState) : List HOp → HasherState
  | [] => st
  | op :: rest => applyOps (applyOp st op) rest

/-- Reference form of the block loop used to reason about
`processBlocks`: a pure fold of the 64-round function over the blocks of
an immutable word read function `w`, reading block `b` as the
endian-swapped words `w (offset + 16*b + i)`. -/
def foldC (w : Nat → Nat) (Hs : List Nat) (offset : Nat) : Nat → List Nat
  | 0 => Hs
  | k + 1 => foldC w (rounds (fun i => swap32 (w (offset + i))) Hs) (offset + 16) k

/-- A byte sequence with every element reduced to an 8-bit value, as the
packing paths of the sources do with `& 0xff`. -/
def mask (m : List Nat) : List Nat := m.map (· % 256)

/-- Byte `i` of the padded form of message `m` (before the length words):
the message bytes, then a single 0x80 byte, then zeros. -/
def padByte (m : List Nat) (i : Nat) : Nat :=
  if i < m.length then m.getD i 0 else if i = m.length then 0x80 else 0

/-- C1: hashing through the `Hasher` facade is deterministic — the
embedding is a pure function of the input bytes, so equal inputs give
equal digests definitionally — and the digests match the published MD5
test vectors for "", "abc" and
"The quick brown fox jumps over the lazy dog". -/
theorem md5_matches_test_vectors :
    md5Bytes [] =
      [0xd4, 0x1d, 0x8c, 0xd9, 0x8f, 0x00, 0xb2, 0x04,
       0xe9, 0x80, 0x09, 0x98, 0xec, 0xf8, 0x42, 0x7e] ∧
    md5Bytes [0x61, 0x62, 0x63] =
      [0x90, 0x01, 0x50, 0x98, 0x3c, 0xd2, 0x4f, 0xb0,
       0xd6, 0x96, 0x3f, 0x7d, 0x28, 0xe1, 0x7f, 0x72] ∧
    md5Bytes foxBytes =
      [0x9e, 0x10, 0x7d, 0x9d, 0x37, 0x2b, 0xb6, 0x82,
       0x6b, 0xd8, 0x1d, 0x35, 0x42, 0xa4, 0x19, 0xd6] := by
  refine ⟨?_, ?_, ?_⟩ <;> decide

/-- C7: padding at finalization produces the correct number of 64-byte
blocks for message lengths 0, 55, 56, 63, 64 and 65: the padded word list
has exactly `16 × blocks` words and the drain pass of `doFinalize` counts
exactly that many compression-function invocations (1, 1, 2, 2, 2, 2
respectively); for a one-shot hash these are all the invocations made. -/
theorem padding_block_counts :
    ([0, 55, 56, 63, 64, 65].map (fun L =>
      let b1 := (newHasher.buffer).append
        (BufferedBlockAlgorithm._parse (List.replicate L 97))
      let d2 := MD5.padData b1._data b1._nDataBytes
      (d2.words.length, nBlocksReady false d2.sigBytes (16 * 4) 0))) =
    [(16 * 1, 1), (16 * 1, 1), (16 * 2, 2), (16 * 2, 2), (16 * 2, 2), (16 * 2, 2)] := by
  decide

/-- C3 counterexample: `MD5.doFinalize` does not call
`process(flush = true)`. `MD5.doFinalizeFlushTrue` is the spec's wording of
step 5 (flush = true); on the empty message the flush-true variant would
run one extra compression over a zero block and produce a different
digest, so the claim's description of the call is observably false of the
code. -/
theorem finalize_flush_true_differs :
    (MD5.doFinalize ⟨⟨[], 0⟩, 0, 16, 0⟩ MD5.doReset).2 ≠
    (MD5.doFinalizeFlushTrue ⟨⟨[], 0⟩, 0, 16, 0⟩ MD5.doReset).2 := by
  decide

/-- C4 counterexample: `MD5.doProcessBlock` does modify state other than
the 4-word hash: it endian-swaps the message words in place, so the input
word array `M` is not left unchanged. -/
theorem doProcessBlock_mutates_message :
    (MD5.doProcessBlock (1 :: List.replicate 15 0) 0 MD5.doReset).1 ≠
    1 :: List.replicate 15 0 := by
  decide

/-- C5 counterexample: the transform's finalize does not preserve the
`WordSequence` invariant `sigBytes ≤ 4 × word-count`: after
`MD5.doFinalize` on a fresh hasher's buffer the buffer holds
`sigBytes = 4` with an empty word list. -/
theorem finalize_breaks_invariant :
    ¬ waInv (MD5.doFinalize ⟨⟨[], 0⟩, 0, 16, 0⟩ MD5.doReset).1.1._data := by
  decide

/-! ### Word-array read/write lemmas -/

theorem getW_eq_default (ws : List Nat) (i : Nat) (h : ws.length ≤ i) :
    getW ws i = 0 :=
  List.getD_eq_default _ _ h

theorem setW_eq (ws : List Nat) (i v : Nat) :
    setW ws i v =
      if i < ws.length then ws.set i v
      else ws ++ List.replicate (i - ws.length) 0 ++ [v] := by
  induction ws generalizing i with
  | nil =>
    induction i with
    | zero => rfl
    | succ i ihi =>
      show 0 :: setW [] i v = _
      rw [ihi]
      simp [List.replicate_succ]
  | cons w t ih =>
    match i with
    | 0 =>
      rw [if_pos (by simp <;> omega)]
      rfl
    | i + 1 =>
      show w :: setW t i v = _
      rw [ih i]
      by_cases h : i < t.length
      · rw [if_pos h, if_pos (by simp; omega)]
        rfl
      · rw [if_neg h, if_neg (by simp; omega)]
        simp only [List.cons_append, List.length_cons]
        rw [show i + 1 - (t.length + 1) = i - t.length from by omega]

theorem getElem?_setW (ws : List Nat) (i v j : Nat) :
    (setW ws i v)[j]? =
      if j = i then some v
      else if j < ws.length then ws[j]?
      else if j < i then some 0 else none := by
  rw [setW_eq]
  by_cases hi : i < ws.length
  · rw [if_pos hi]
    by_cases hj : j = i
    · subst hj
      rw [if_pos rfl, List.getElem?_eq_getElem (by simpa using hi),
        List.getElem_set_self]
    · rw [if_neg hj]
      by_cases hjl : j < ws.length
      · rw [if_pos hjl, List.getElem?_eq_getElem (by simpa using hjl),
          List.getElem?_eq_getElem hjl]
        rw [List.getElem_set_ne (fun e => hj e.symm)]
      · rw [if_neg hjl, if_neg (by omega),
          List.getElem?_eq_none (by simp; omega)]
  · rw [if_neg hi]
    push_neg at hi
    rw [List.append_assoc, List.getElem?_append]
    by_cases hjl : j < ws.length
    · rw [if_pos hjl, if_neg (by omega), if_pos hjl]
    · rw [if_neg hjl, List.getElem?_append, List.getElem?_replicate]
      simp only [List.length_replicate]
      push_neg at hjl
      by_cases hj : j = i
      · subst hj
        rw [if_pos rfl, if_neg (show ¬(j - ws.length < j - ws.length) by omega),
          Nat.sub_self]
        rfl
      · rw [if_neg hj, if_neg (show ¬(j < ws.length) by omega)]
        by_cases hji : j < i
        · rw [if_pos hji]
          simp [show j - ws.length < i - ws.length from by omega]
        · rw [if_neg (show ¬(j - ws.length < i - ws.length) by omega),
            if_neg hji, List.getElem?_eq_none (by simp; omega)]

theorem getW_setW_self (ws : List Nat) (i v : Nat) : getW (setW ws i v) i = v := by
  unfold getW
  rw [List.getD_eq_getElem?_getD, getElem?_setW, if_pos rfl]
  rfl

theorem getW_setW_ne (ws : List Nat) (i j v : Nat) (h : j ≠ i) :
    getW (setW ws i v) j = getW ws j := by
  unfold getW
  rw [List.getD_eq_getElem?_getD, getElem?_setW, if_neg h]
  by_cases hjl : j < ws.length
  · rw [if_pos hjl, ← List.getD_eq_getElem?_getD]
  · rw [if_neg hjl, List.getD_eq_default _ _ (by omega)]
    by_cases hji : j < i
    · rw [if_pos hji]
      rfl
    · rw [if_neg hji]
      rfl

theorem length_setW (ws : List Nat) (i v : Nat) :
    (setW ws i v).length = max ws.length (i + 1) := by
  rw [setW_eq]
  by_cases hi : i < ws.length
  · rw [if_pos hi, List.length_set]
    omega
  · rw [if_neg hi]
    simp
    omega

theorem drop_setW (ws : List Nat) (i v n : Nat) (h : i < n) :
    (setW ws i v).drop n = ws.drop n := by
  rw [setW_eq]
  by_cases hi : i < ws.length
  · rw [if_pos hi, List.drop_set, if_pos h]
  · rw [if_neg hi]
    push_neg at hi
    rw [List.drop_eq_nil_of_le (by simp; omega),
      List.drop_eq_nil_of_le (by omega)]

theorem length_le_length_setW (ws : List Nat) (i v : Nat) :
    ws.length ≤ (setW ws i v).length := by
  rw [length_setW]
  omega

/-! ### Disjoint-or arithmetic -/

/-- A bitwise OR whose right operand lives entirely below the left
operand's lowest set bit is an addition. -/
theorem lor_two_pow_add (k a b : Nat) (hb : b < 2 ^ k) :
    2 ^ k * a ||| b = 2 ^ k * a + b := by
  apply Nat.eq_of_testBit_eq
  intro i
  rw [Nat.testBit_lor, Nat.testBit_mul_pow_two_add a hb i]
  have hz := Nat.testBit_mul_pow_two_add a (Nat.two_pow_pos k) i
  rw [Nat.add_zero] at hz
  rw [hz]
  by_cases h : i < k
  · simp [h]
  · have hbf : b.testBit i = false :=
      Nat.testBit_eq_false_of_lt
        (lt_of_lt_of_le hb (Nat.pow_le_pow_right (by omega) (by omega)))
    simp [h, hbf]

/-! ### Endian-swap loop lemmas -/

theorem getW_swapRangeN (M : List Nat) (o n j : Nat) :
    getW (swapRangeN M o n) j =
      if o ≤ j ∧ j < o + n then swap32 (getW M j) else getW M j := by
  induction n with
  | zero =>
    rw [if_neg (by omega)]
    rfl
  | succ n ih =>
    show getW (swapStep (swapRangeN M o n) (o + n)) j = _
    unfold swapStep
    by_cases hj : j = o + n
    · subst hj
      rw [getW_setW_self, ih, if_neg (by omega), if_pos (by omega)]
    · rw [getW_setW_ne _ _ _ _ hj, ih]
      by_cases hc : o ≤ j ∧ j < o + n
      · rw [if_pos hc, if_pos (by omega)]
      · rw [if_neg hc, if_neg (by omega)]

theorem length_swapRangeN (M : List Nat) (o n : Nat) :
    (swapRangeN M o n).length = if n = 0 then M.length else max M.length (o + n) := by
  induction n with
  | zero => rfl
  | succ n ih =>
    show (swapStep (swapRangeN M o n) (o + n)).length = _
    unfold swapStep
    rw [length_setW, ih, if_neg (Nat.succ_ne_zero n)]
    by_cases h : n = 0
    · rw [if_pos h]
      subst h
      omega
    · rw [if_neg h]
      omega

theorem length_swapRangeN_of_le (M : List Nat) (o n : Nat) (h : o + n ≤ M.length) :
    (swapRangeN M o n).length = M.length := by
  rw [length_swapRangeN]
  by_cases hn : n = 0
  · rw [if_pos hn]
  · rw [if_neg hn]
    omega

theorem drop_swapRangeN (M : List Nat) (o : Nat) :
    ∀ n k, o + n ≤ k → (swapRangeN M o n).drop k = M.drop k
  | 0, _, _ => rfl
  | n + 1, k, h => by
    show (swapStep (swapRangeN M o n) (o + n)).drop k = _
    unfold swapStep
    rw [drop_setW _ _ _ _ (by omega), drop_swapRangeN M o n k (by omega)]

theorem length_le_swapRangeN (M : List Nat) (o n : Nat) :
    M.length ≤ (swapRangeN M o n).length := by
  induction n with
  | zero => exact Nat.le_refl _
  | succ n ih =>
    refine le_trans ih ?_
    show _ ≤ (swapStep (swapRangeN M o n) (o + n)).length
    unfold swapStep
    exact length_le_length_setW _ _ _

/-! ### Block loop lemmas -/

theorem roundsCong (m1 m2 : Nat → Nat) (Hs : List Nat)
    (h : ∀ i, i < 16 → m1 i = m2 i) : rounds m1 Hs = rounds m2 Hs := by
  unfold rounds
  simp only [h 0 (by omega), h 1 (by omega), h 2 (by omega), h 3 (by omega),
    h 4 (by omega), h 5 (by omega), h 6 (by omega), h 7 (by omega),
    h 8 (by omega), h 9 (by omega), h 10 (by omega), h 11 (by omega),
    h 12 (by omega), h 13 (by omega), h 14 (by omega), h 15 (by omega)]

theorem doProcessBlock_fst (M : List Nat) (o : Nat) (Hs : List Nat) :
    (MD5.doProcessBlock M o Hs).1 = swapRangeN M o 16 := by
  unfold MD5.doProcessBlock
  simp only []

theorem doProcessBlock_snd (M : List Nat) (o : Nat) (Hs : List Nat) :
    (MD5.doProcessBlock M o Hs).2 =
      rounds (fun i => swap32 (getW M (o + i))) Hs := by
  unfold MD5.doProcessBlock
  simp only []
  apply roundsCong
  intro i hi
  rw [getW_swapRangeN, if_pos (by omega)]

theorem processBlocks_succ (bs : Nat) (M Hs : List Nat) (o k : Nat) :
    processBlocks bs M Hs o (k + 1) =
      processBlocks bs (MD5.doProcessBlock M o Hs).1
        (MD5.doProcessBlock M o Hs).2 (o + bs) k := rfl

theorem foldC_succ (w : Nat → Nat) (Hs : List Nat) (o k : Nat) :
    foldC w Hs o (k + 1) =
      foldC w (rounds (fun i => swap32 (w (o + i))) Hs) (o + 16) k := rfl

theorem foldC_cong (k : Nat) :
    ∀ (w1 w2 : Nat → Nat) (Hs : List Nat) (o1 o2 : Nat),
      (∀ j, j < 16 * k → w1 (o1 + j) = w2 (o2 + j)) →
      foldC w1 Hs o1 k = foldC w2 Hs o2 k := by
  induction k with
  | zero => intros; rfl
  | succ k ih =>
    intro w1 w2 Hs o1 o2 h
    rw [foldC_succ, foldC_succ,
      roundsCong (fun i => swap32 (w1 (o1 + i))) (fun i => swap32 (w2 (o2 + i))) Hs
        (fun i hi => by
          show swap32 (w1 (o1 + i)) = swap32 (w2 (o2 + i))
          rw [h i (by omega)])]
    apply ih
    intro j hj
    have e := h (16 + j) (by omega)
    rwa [← Nat.add_assoc, ← Nat.add_assoc] at e

theorem foldC_split (w : Nat → Nat) (k2 : Nat) :
    ∀ k1 Hs o, foldC w Hs o (k1 + k2) = foldC w (foldC w Hs o k1) (o + 16 * k1) k2
  | 0, Hs, o => by
    rw [show 0 + k2 = k2 from by omega, show o + 16 * 0 = o from by omega]
    rfl
  | k1 + 1, Hs, o => by
    rw [show k1 + 1 + k2 = (k1 + k2) + 1 from by omega, foldC_succ,
      foldC_split w k2 k1 (rounds (fun i => swap32 (w (o + i))) Hs) (o + 16),
      foldC_succ, show o + 16 * (k1 + 1) = o + 16 + 16 * k1 from by omega]

theorem processBlocks_snd (k : Nat) :
    ∀ M Hs o, (processBlocks 16 M Hs o k).2 = foldC (getW M) Hs o k := by
  induction k with
  | zero => intros; rfl
  | succ k ih =>
    intro M Hs o
    rw [processBlocks_succ, ih, doProcessBlock_fst, doProcessBlock_snd,
      foldC_succ]
    apply foldC_cong
    intro j hj
    rw [getW_swapRangeN, if_neg (by omega)]

theorem drop_processBlocks (n : Nat) :
    ∀ k M Hs o, o + 16 * k ≤ n → (processBlocks 16 M Hs o k).1.drop n = M.drop n
  | 0, _, _, _, _ => rfl
  | k + 1, M, Hs, o, h => by
    rw [processBlocks_succ,
      drop_processBlocks n k _ _ _ (by omega), doProcessBlock_fst,
      drop_swapRangeN M o 16 n (by omega)]

theorem length_processBlocks :
    ∀ (k : Nat) (M Hs : List Nat) (o : Nat), o + 16 * k ≤ M.length →
      (processBlocks 16 M Hs o k).1.length = M.length
  | 0, _, _, _, _ => rfl
  | k + 1, M, Hs, o, h => by
    rw [processBlocks_succ, doProcessBlock_fst,
      length_processBlocks k _ _ _
        (by rw [length_swapRangeN_of_le M o 16 (by omega)]; omega),
      length_swapRangeN_of_le M o 16 (by omega)]

theorem length_le_processBlocks (bs : Nat) :
    ∀ (k : Nat) (M Hs : List Nat) (o : Nat),
      M.length ≤ (processBlocks bs M Hs o k).1.length
  | 0, _, _, _ => Nat.le_refl _
  | k + 1, M, Hs, o => by
    rw [processBlocks_succ, doProcessBlock_fst]
    exact le_trans (length_le_swapRangeN M o 16)
      (length_le_processBlocks bs k _ _ _)

/-! ### Byte packing lemmas -/

theorem and_255 (x : Nat) : x &&& 255 = x % 256 := by
  have h := Nat.and_pow_two_sub_one_eq_mod x 8
  norm_num at h
  exact h

theorem length_packBytes : ∀ m : List Nat, (packBytes m).length = (m.length + 3) / 4
  | _ :: _ :: _ :: _ :: t => by
    show (packBytes t).length + 1 = _
    rw [length_packBytes t]
    simp only [List.length_cons]
    omega
  | [] => rfl
  | [_] => by norm_num [packBytes]
  | [_, _] => by norm_num [packBytes]
  | [_, _, _] => by norm_num [packBytes]

theorem packW_zero : packW 0 0 0 0 = 0 := rfl

theorem getD_cons_add4 (b0 b1 b2 b3 : Nat) (t : List Nat) (n : Nat) :
    (b0 :: b1 :: b2 :: b3 :: t).getD (n + 4) 0 = t.getD n 0 := by
  rw [show n + 4 = (((n + 1) + 1) + 1) + 1 from by omega]
  simp only [List.getD_cons_succ]

theorem getW_packBytes :
    ∀ (m : List Nat) (j : Nat),
      getW (packBytes m) j =
        packW (m.getD (4 * j) 0) (m.getD (4 * j + 1) 0)
          (m.getD (4 * j + 2) 0) (m.getD (4 * j + 3) 0)
  | b0 :: b1 :: b2 :: b3 :: t, j => by
    cases j with
    | zero => rfl
    | succ j =>
      show getW (packBytes t) j = _
      rw [getW_packBytes t j,
        show 4 * (j + 1) = 4 * j + 4 from by omega, getD_cons_add4,
        show 4 * j + 4 + 1 = (4 * j + 1) + 4 from by omega, getD_cons_add4,
        show 4 * j + 4 + 2 = (4 * j + 2) + 4 from by omega, getD_cons_add4,
        show 4 * j + 4 + 3 = (4 * j + 3) + 4 from by omega, getD_cons_add4]
  | [], j => by
    unfold getW
    rw [List.getD_eq_default _ _ (by simp [packBytes] <;> omega),
      List.getD_eq_default _ _ (by simp <;> omega),
      List.getD_eq_default _ _ (by simp <;> omega),
      List.getD_eq_default _ _ (by simp <;> omega),
      List.getD_eq_default _ _ (by simp <;> omega)]
    rfl
  | [b0], j => by
    cases j with
    | zero => rfl
    | succ j =>
      unfold getW
      rw [List.getD_eq_default _ _ (by simp [packBytes] <;> omega),
        List.getD_eq_default _ _ (by simp <;> omega),
        List.getD_eq_default _ _ (by simp <;> omega),
        List.getD_eq_default _ _ (by simp <;> omega),
        List.getD_eq_default _ _ (by simp <;> omega)]
      rfl
  | [b0, b1], j => by
    cases j with
    | zero => rfl
    | succ j =>
      unfold getW
      rw [List.getD_eq_default _ _ (by simp [packBytes] <;> omega),
        List.getD_eq_default _ _ (by simp <;> omega),
        List.getD_eq_default _ _ (by simp <;> omega),
        List.getD_eq_default _ _ (by simp <;> omega),
        List.getD_eq_default _ _ (by simp <;> omega)]
      rfl
  | [b0, b1, b2], j => by
    cases j with
    | zero => rfl
    | succ j =>
      unfold getW
      rw [List.getD_eq_default _ _ (by simp [packBytes] <;> omega),
        List.getD_eq_default _ _ (by simp <;> omega),
        List.getD_eq_default _ _ (by simp <;> omega),
        List.getD_eq_default _ _ (by simp <;> omega),
        List.getD_eq_default _ _ (by simp <;> omega)]
      rfl

theorem drop_cons_add4 (b0 b1 b2 b3 : Nat) (t : List Nat) (n : Nat) :
    (b0 :: b1 :: b2 :: b3 :: t).drop (n + 4) = t.drop n := by
  rw [show n + 4 = (((n + 1) + 1) + 1) + 1 from by omega]
  simp only [List.drop_succ_cons]

theorem drop_packBytes :
    ∀ (m : List Nat) (k : Nat), (packBytes m).drop k = packBytes (m.drop (4 * k))
  | m, 0 => by rw [Nat.mul_zero, List.drop_zero, List.drop_zero]
  | b0 :: b1 :: b2 :: b3 :: t, k + 1 => by
    show (packBytes t).drop k = _
    rw [drop_packBytes t k, show 4 * (k + 1) = 4 * k + 4 from by omega,
      drop_cons_add4]
  | [], k + 1 => by simp [packBytes]
  | [b0], k + 1 => by
    rw [List.drop_eq_nil_of_le (by simp [packBytes]),
      List.drop_eq_nil_of_le (by simp <;> omega)]
    rfl
  | [b0, b1], k + 1 => by
    rw [List.drop_eq_nil_of_le (by simp [packBytes]),
      List.drop_eq_nil_of_le (by simp <;> omega)]
    rfl
  | [b0, b1, b2], k + 1 => by
    rw [List.drop_eq_nil_of_le (by simp [packBytes]),
      List.drop_eq_nil_of_le (by simp <;> omega)]
    rfl

theorem packW_mod (a b c d : Nat) :
    packW (a % 256) (b % 256) (c % 256) (d % 256) = packW a b c d := by
  unfold packW
  omega

theorem packBytes_mask : ∀ m : List Nat, packBytes (mask m) = packBytes m
  | b0 :: b1 :: b2 :: b3 :: t => by
    show packW (b0 % 256) (b1 % 256) (b2 % 256) (b3 % 256) ::
      packBytes (mask t) = _
    rw [packBytes_mask t, packW_mod]
    rfl
  | [] => rfl
  | [b0] => by
    show [packW (b0 % 256) 0 0 0] = [packW b0 0 0 0]
    rw [show packW (b0 % 256) 0 0 0 = packW b0 0 0 0 from by unfold packW; omega]
  | [b0, b1] => by
    show [packW (b0 % 256) (b1 % 256) 0 0] = [packW b0 b1 0 0]
    rw [show packW (b0 % 256) (b1 % 256) 0 0 = packW b0 b1 0 0 from by
      unfold packW; omega]
  | [b0, b1, b2] => by
    show [packW (b0 % 256) (b1 % 256) (b2 % 256) 0] = [packW b0 b1 b2 0]
    rw [show packW (b0 % 256) (b1 % 256) (b2 % 256) 0 = packW b0 b1 b2 0 from by
      unfold packW; omega]

theorem packW_byte (b0 b1 b2 b3 r : Nat) (hr : r < 4) :
    packW b0 b1 b2 b3 / 2 ^ ((3 - r) * 8) % 256 =
      (if r = 0 then b0 else if r = 1 then b1 else if r = 2 then b2 else b3) % 256 := by
  unfold packW
  interval_cases r <;> norm_num <;> omega

theorem readByteW_packBytes (m : List Nat) (i : Nat) :
    readByteW ⟨packBytes m, m.length⟩ i = m.getD i 0 % 256 := by
  show getW (packBytes m) (i / 4) / 2 ^ ((3 - i % 4) * 8) % 256 = _
  rw [getW_packBytes, packW_byte _ _ _ _ _ (Nat.mod_lt _ (by omega))]
  rcases (by omega : i % 4 = 0 ∨ i % 4 = 1 ∨ i % 4 = 2 ∨ i % 4 = 3) with h | h | h | h
  all_goals rw [h]
  · rw [if_pos rfl, show 4 * (i / 4) = i from by omega]
  · rw [if_neg (by omega), if_pos rfl, show 4 * (i / 4) + 1 = i from by omega]
  · rw [if_neg (by omega), if_neg (by omega), if_pos rfl,
      show 4 * (i / 4) + 2 = i from by omega]
  · rw [if_neg (by omega), if_neg (by omega), if_neg (by omega),
      show 4 * (i / 4) + 3 = i from by omega]

theorem bytesOf_packBytes (m : List Nat) :
    bytesOf ⟨packBytes m, m.length⟩ = mask m := by
  unfold bytesOf mask
  apply List.ext_getElem
  · simp
  · intro n h1 h2
    simp only [List.getElem_map, List.getElem_range]
    rw [readByteW_packBytes, List.getD_eq_getElem _ _ (by simpa using h2)]

theorem concat_canonical (m s : List Nat) :
    WordArray.concat ⟨packBytes m, m.length⟩ ⟨packBytes s, s.length⟩ =
      ⟨packBytes (mask m ++ mask s), m.length + s.length⟩ := by
  unfold WordArray.concat
  rw [bytesOf_packBytes, bytesOf_packBytes]

theorem mask_append (a b : List Nat) : mask (a ++ b) = mask a ++ mask b :=
  List.map_append _ a b

theorem mask_mask (m : List Nat) : mask (mask m) = mask m := by
  unfold mask
  rw [List.map_map]
  apply List.map_congr_left
  intro a _
  show a % 256 % 256 = a % 256
  omega

theorem mask_drop (m : List Nat) (n : Nat) : mask (m.drop n) = (mask m).drop n :=
  List.map_drop _ m n

theorem length_mask (m : List Nat) : (mask m).length = m.length :=
  List.length_map m _

/-! ### The `_parse` packing loop builds `packBytes` -/

theorem setW_append_len (ws : List Nat) (v : Nat) :
    setW ws ws.length v = ws ++ [v] := by
  rw [setW_eq, if_neg (lt_irrefl _)]
  simp

theorem getW_append_len (ws : List Nat) (v : Nat) : getW (ws ++ [v]) ws.length = v := by
  unfold getW
  rw [List.getD_eq_getElem?_getD, List.getElem?_concat_length]
  rfl

theorem setW_append_last (ws : List Nat) (v y : Nat) :
    setW (ws ++ [v]) ws.length y = ws ++ [y] := by
  rw [setW_eq, if_pos (by simp), List.set_append, if_neg (lt_irrefl _),
    Nat.sub_self]
  rfl

theorem parseStep_0 (ws : List Nat) (b : Nat) :
    parseStep ws (4 * ws.length) b = ws ++ [(b % 256) * 2 ^ 24] := by
  unfold parseStep
  rw [show 4 * ws.length / 4 = ws.length from by omega,
    show 24 - 4 * ws.length % 4 * 8 = 24 from by omega,
    getW_eq_default _ _ (Nat.le_refl _), Nat.zero_or, and_255, setW_append_len]

theorem parseStep_t (ws : List Nat) (v b a t : Nat) (h1 : 1 ≤ t) (h2 : t ≤ 3)
    (hv : v = 2 ^ (32 - 8 * t) * a) :
    parseStep (ws ++ [v]) (4 * ws.length + t) b =
      ws ++ [v + (b % 256) * 2 ^ (24 - 8 * t)] := by
  unfold parseStep
  have hlt : (b % 256) * 2 ^ (24 - 8 * t) < 2 ^ (32 - 8 * t) := by
    calc (b % 256) * 2 ^ (24 - 8 * t) < 256 * 2 ^ (24 - 8 * t) :=
          mul_lt_mul_of_pos_right (by omega) (Nat.two_pow_pos _)
      _ = 2 ^ (32 - 8 * t) := by
          rw [show (256 : Nat) = 2 ^ 8 from rfl, ← Nat.pow_add,
            show 8 + (24 - 8 * t) = 32 - 8 * t from by omega]
  rw [show (4 * ws.length + t) / 4 = ws.length from by omega,
    show 24 - (4 * ws.length + t) % 4 * 8 = 24 - 8 * t from by omega]
  rw [getW_append_len, and_255, hv, lor_two_pow_add _ _ _ hlt, ← hv,
    setW_append_last]

theorem parseAux_aligned :
    ∀ (s ws : List Nat), parseAux ws (4 * ws.length) s = ws ++ packBytes s
  | [], ws => by simp [parseAux, packBytes]
  | [b0], ws => by
    show parseAux (parseStep ws (4 * ws.length) b0) (4 * ws.length + 1) [] = _
    rw [parseStep_0]
    show ws ++ [(b0 % 256) * 2 ^ 24] = _
    rw [show (b0 % 256) * 2 ^ 24 = packW b0 0 0 0 from by unfold packW; norm_num]
    rfl
  | [b0, b1], ws => by
    show parseAux (parseStep ws (4 * ws.length) b0) (4 * ws.length + 1) [b1] = _
    rw [parseStep_0]
    show parseAux (parseStep (ws ++ [(b0 % 256) * 2 ^ 24])
      (4 * ws.length + 1) b1) (4 * ws.length + 1 + 1) [] = _
    rw [parseStep_t ws _ b1 (b0 % 256) 1 (by omega) (by omega)
      (by rw [show 32 - 8 * 1 = 24 from by norm_num, Nat.mul_comm])]
    show ws ++ [(b0 % 256) * 2 ^ 24 + (b1 % 256) * 2 ^ (24 - 8 * 1)] = _
    rw [show (b0 % 256) * 2 ^ 24 + (b1 % 256) * 2 ^ (24 - 8 * 1) =
      packW b0 b1 0 0 from by unfold packW; norm_num]
    rfl
  | [b0, b1, b2], ws => by
    show parseAux (parseStep ws (4 * ws.length) b0) (4 * ws.length + 1) [b1, b2] = _
    rw [parseStep_0]
    show parseAux (parseStep (ws ++ [(b0 % 256) * 2 ^ 24])
      (4 * ws.length + 1) b1) (4 * ws.length + 1 + 1) [b2] = _
    rw [parseStep_t ws _ b1 (b0 % 256) 1 (by omega) (by omega)
      (by rw [show 32 - 8 * 1 = 24 from by norm_num, Nat.mul_comm])]
    show parseAux (parseStep (ws ++ [(b0 % 256) * 2 ^ 24 + (b1 % 256) * 2 ^ (24 - 8 * 1)])
      (4 * ws.length + 1 + 1) b2) (4 * ws.length + 1 + 1 + 1) [] = _
    rw [show 4 * ws.length + 1 + 1 = 4 * ws.length + 2 from by omega]
    rw [parseStep_t ws _ b2 ((b0 % 256) * 2 ^ 8 + b1 % 256) 2 (by omega) (by omega)
      (by norm_num; ring)]
    show ws ++ [(b0 % 256) * 2 ^ 24 + (b1 % 256) * 2 ^ (24 - 8 * 1) +
      (b2 % 256) * 2 ^ (24 - 8 * 2)] = _
    rw [show (b0 % 256) * 2 ^ 24 + (b1 % 256) * 2 ^ (24 - 8 * 1) +
      (b2 % 256) * 2 ^ (24 - 8 * 2) = packW b0 b1 b2 0 from by unfold packW; norm_num]
    rfl
  | b0 :: b1 :: b2 :: b3 :: t, ws => by
    show parseAux (parseStep ws (4 * ws.length) b0) (4 * ws.length + 1)
      (b1 :: b2 :: b3 :: t) = _
    rw [parseStep_0]
    show parseAux (parseStep (ws ++ [(b0 % 256) * 2 ^ 24])
      (4 * ws.length + 1) b1) (4 * ws.length + 1 + 1) (b2 :: b3 :: t) = _
    rw [parseStep_t ws _ b1 (b0 % 256) 1 (by omega) (by omega)
      (by rw [show 32 - 8 * 1 = 24 from by norm_num, Nat.mul_comm])]
    show parseAux (parseStep (ws ++ [(b0 % 256) * 2 ^ 24 + (b1 % 256) * 2 ^ (24 - 8 * 1)])
      (4 * ws.length + 1 + 1) b2) (4 * ws.length + 1 + 1 + 1) (b3 :: t) = _
    rw [show 4 * ws.length + 1 + 1 = 4 * ws.length + 2 from by omega]
    rw [parseStep_t ws _ b2 ((b0 % 256) * 2 ^ 8 + b1 % 256) 2 (by omega) (by omega)
      (by norm_num; ring)]
    show parseAux (parseStep (ws ++ [(b0 % 256) * 2 ^ 24 + (b1 % 256) * 2 ^ (24 - 8 * 1) +
      (b2 % 256) * 2 ^ (24 - 8 * 2)])
      (4 * ws.length + 2 + 1) b3) (4 * ws.length + 2 + 1 + 1) t = _
    rw [show 4 * ws.length + 2 + 1 = 4 * ws.length + 3 from by omega]
    rw [parseStep_t ws _ b3 ((b0 % 256) * 2 ^ 16 + (b1 % 256) * 2 ^ 8 + b2 % 256) 3
      (by omega) (by omega) (by norm_num; ring)]
    rw [show (b0 % 256) * 2 ^ 24 + (b1 % 256) * 2 ^ (24 - 8 * 1) +
      (b2 % 256) * 2 ^ (24 - 8 * 2) + (b3 % 256) * 2 ^ (24 - 8 * 3) =
      packW b0 b1 b2 b3 from by unfold packW; norm_num]
    rw [show 4 * ws.length + 3 + 1 = 4 * (ws ++ [packW b0 b1 b2 b3]).length from by
      simp
      omega]
    rw [parseAux_aligned t (ws ++ [packW b0 b1 b2 b3]), List.append_assoc]
    rfl

theorem _parse_eq (s : List Nat) :
    BufferedBlockAlgorithm._parse s = ⟨packBytes s, s.length⟩ := by
  unfold BufferedBlockAlgorithm._parse
  have h := parseAux_aligned s []
  simp only [List.length_nil, Nat.mul_zero, List.nil_append] at h
  rw [h]

/-! ### `process` on canonical buffer states -/

theorem nBlocksReady_false (sig bsB mB : Nat) :
    nBlocksReady false sig bsB mB = sig / bsB - mB := by
  unfold nBlocksReady
  simp

theorem nBlocksReady_true (sig bsB mB : Nat) :
    nBlocksReady true sig bsB mB = (sig + bsB - 1) / bsB := by
  unfold nBlocksReady
  simp

theorem process_false_canonical (m : List Nat) (N : Nat) (Hs : List Nat) :
    BufferedBlockAlgorithm.process false ⟨⟨packBytes m, m.length⟩, N, 16, 0⟩ Hs =
      ⟨⟨⟨packBytes (m.drop (64 * (m.length / 64))),
          m.length - 64 * (m.length / 64)⟩, N, 16, 0⟩,
        foldC (getW (packBytes m)) Hs 0 (m.length / 64),
        if m.length / 64 ≠ 0 then
          ⟨(processBlocks 16 (packBytes m) Hs 0 (m.length / 64)).1.take
            (m.length / 64 * 16), 64 * (m.length / 64)⟩
        else ⟨[], 0⟩⟩ := by
  unfold BufferedBlockAlgorithm.process
  simp only [nBlocksReady_false]
  rw [show m.length / (16 * 4) - 0 = m.length / 64 from by norm_num]
  by_cases h0 : m.length / 64 = 0
  · rw [h0]
    simp only [Nat.zero_mul, ne_eq, not_true_eq_false, if_false,
      reduceIte]
    rw [show (64 : Nat) * 0 = 0 from rfl, List.drop_zero]
    simp [foldC]
  · rw [if_pos (by omega), if_pos (by
      simp only [ne_eq]
      omega)]
    have hbytes : min (m.length / 64 * 16 * 4) m.length = 64 * (m.length / 64) := by
      omega
    rw [hbytes]
    have hdrop : (processBlocks 16 (packBytes m) Hs 0 (m.length / 64)).1.drop
        (m.length / 64 * 16) = packBytes (m.drop (64 * (m.length / 64))) := by
      rw [show m.length / 64 * 16 = 16 * (m.length / 64) from by omega,
        drop_processBlocks _ _ _ _ _ (by omega), drop_packBytes,
        show 4 * (16 * (m.length / 64)) = 64 * (m.length / 64) from by omega]
    rw [hdrop, processBlocks_snd]

/-! ### Characterizing the padded buffer of `doFinalize` -/

theorem pad80_word (m : List Nat) :
    getW (packBytes m) (m.length / 4) ||| 128 * 2 ^ (24 - 8 * (m.length % 4)) =
      packW (padByte m (4 * (m.length / 4))) (padByte m (4 * (m.length / 4) + 1))
        (padByte m (4 * (m.length / 4) + 2)) (padByte m (4 * (m.length / 4) + 3)) := by
  rw [getW_packBytes]
  rcases (by omega : m.length % 4 = 0 ∨ m.length % 4 = 1 ∨ m.length % 4 = 2 ∨
    m.length % 4 = 3) with h | h | h | h
  · rw [h, show 4 * (m.length / 4) = m.length from by omega,
      List.getD_eq_default _ _ (by omega), List.getD_eq_default _ _ (by omega),
      List.getD_eq_default _ _ (by omega), List.getD_eq_default _ _ (by omega),
      show padByte m m.length = 128 from by
        unfold padByte; rw [if_neg (by omega), if_pos rfl],
      show padByte m (m.length + 1) = 0 from by
        unfold padByte; rw [if_neg (by omega), if_neg (by omega)],
      show padByte m (m.length + 2) = 0 from by
        unfold padByte; rw [if_neg (by omega), if_neg (by omega)],
      show padByte m (m.length + 3) = 0 from by
        unfold padByte; rw [if_neg (by omega), if_neg (by omega)],
      packW_zero, Nat.zero_or]
    unfold packW
    norm_num
  · rw [h,
      List.getD_eq_default _ _ (show m.length ≤ 4 * (m.length / 4) + 1 from by omega),
      List.getD_eq_default _ _ (show m.length ≤ 4 * (m.length / 4) + 2 from by omega),
      List.getD_eq_default _ _ (show m.length ≤ 4 * (m.length / 4) + 3 from by omega),
      show padByte m (4 * (m.length / 4)) = m.getD (4 * (m.length / 4)) 0 from by
        unfold padByte; rw [if_pos (by omega)],
      show padByte m (4 * (m.length / 4) + 1) = 128 from by
        unfold padByte; rw [if_neg (by omega), if_pos (by omega)],
      show padByte m (4 * (m.length / 4) + 2) = 0 from by
        unfold padByte; rw [if_neg (by omega), if_neg (by omega)],
      show padByte m (4 * (m.length / 4) + 3) = 0 from by
        unfold padByte; rw [if_neg (by omega), if_neg (by omega)],
      show (24 : Nat) - 8 * 1 = 16 from by norm_num,
      show packW (m.getD (4 * (m.length / 4)) 0) 0 0 0 =
        2 ^ 24 * (m.getD (4 * (m.length / 4)) 0 % 256) from by unfold packW; ring,
      lor_two_pow_add 24 _ _ (by norm_num)]
    unfold packW
    norm_num
    omega
  · rw [h,
      List.getD_eq_default _ _ (show m.length ≤ 4 * (m.length / 4) + 2 from by omega),
      List.getD_eq_default _ _ (show m.length ≤ 4 * (m.length / 4) + 3 from by omega),
      show padByte m (4 * (m.length / 4)) = m.getD (4 * (m.length / 4)) 0 from by
        unfold padByte; rw [if_pos (by omega)],
      show padByte m (4 * (m.length / 4) + 1) = m.getD (4 * (m.length / 4) + 1) 0 from by
        unfold padByte; rw [if_pos (by omega)],
      show padByte m (4 * (m.length / 4) + 2) = 128 from by
        unfold padByte; rw [if_neg (by omega), if_pos (by omega)],
      show padByte m (4 * (m.length / 4) + 3) = 0 from by
        unfold padByte; rw [if_neg (by omega), if_neg (by omega)],
      show (24 : Nat) - 8 * 2 = 8 from by norm_num,
      show packW (m.getD (4 * (m.length / 4)) 0) (m.getD (4 * (m.length / 4) + 1) 0) 0 0 =
        2 ^ 16 * ((m.getD (4 * (m.length / 4)) 0 % 256) * 2 ^ 8 +
          m.getD (4 * (m.length / 4) + 1) 0 % 256) from by unfold packW; ring,
      lor_two_pow_add 16 _ _ (by norm_num)]
    unfold packW
    norm_num
    omega
  · rw [h,
      List.getD_eq_default _ _ (show m.length ≤ 4 * (m.length / 4) + 3 from by omega),
      show padByte m (4 * (m.length / 4)) = m.getD (4 * (m.length / 4)) 0 from by
        unfold padByte; rw [if_pos (by omega)],
      show padByte m (4 * (m.length / 4) + 1) = m.getD (4 * (m.length / 4) + 1) 0 from by
        unfold padByte; rw [if_pos (by omega)],
      show padByte m (4 * (m.length / 4) + 2) = m.getD (4 * (m.length / 4) + 2) 0 from by
        unfold padByte; rw [if_pos (by omega)],
      show padByte m (4 * (m.length / 4) + 3) = 128 from by
        unfold padByte; rw [if_neg (by omega), if_pos (by omega)],
      show (24 : Nat) - 8 * 3 = 0 from by norm_num, pow_zero, Nat.mul_one,
      show packW (m.getD (4 * (m.length / 4)) 0) (m.getD (4 * (m.length / 4) + 1) 0)
        (m.getD (4 * (m.length / 4) + 2) 0) 0 =
        2 ^ 8 * ((m.getD (4 * (m.length / 4)) 0 % 256) * 2 ^ 16 +
          (m.getD (4 * (m.length / 4) + 1) 0 % 256) * 2 ^ 8 +
          m.getD (4 * (m.length / 4) + 2) 0 % 256) from by unfold packW; ring,
      lor_two_pow_add 8 _ _ (by omega)]
    unfold packW
    norm_num
    omega

theorem padData_getW (m : List Nat) (N j : Nat) (hm : m.length < 536870904) :
    getW (MD5.padData ⟨packBytes m, m.length⟩ N).words j =
      if j = 16 * ((m.length + 8) / 64) + 14 then swap32 (N * 8)
      else if j = 16 * ((m.length + 8) / 64) + 15 then swap32 (N * 8 / 4294967296)
      else packW (padByte m (4 * j)) (padByte m (4 * j + 1))
        (padByte m (4 * j + 2)) (padByte m (4 * j + 3)) := by
  unfold MD5.padData
  simp only []
  rw [show m.length * 8 % 4294967296 / 32 = m.length / 4 from by omega,
    show 24 - m.length * 8 % 32 = 24 - 8 * (m.length % 4) from by omega,
    show (m.length * 8 + 64) % 4294967296 / 512 * 16 =
      16 * ((m.length + 8) / 64) from by omega]
  have hne : m.length / 4 < 16 * ((m.length + 8) / 64) + 14 := by omega
  by_cases h14 : j = 16 * ((m.length + 8) / 64) + 14
  · rw [if_pos h14, h14, getW_setW_self]
  · rw [if_neg h14, getW_setW_ne _ _ _ _ h14]
    by_cases h15 : j = 16 * ((m.length + 8) / 64) + 15
    · rw [if_pos h15, h15, getW_setW_self]
    · rw [if_neg h15, getW_setW_ne _ _ _ _ h15]
      by_cases h80 : j = m.length / 4
      · rw [h80, getW_setW_self, pad80_word]
      · rw [getW_setW_ne _ _ _ _ h80, getW_packBytes]
        rcases (by omega : j < m.length / 4 ∨ j > m.length / 4) with hj | hj
        · rw [show padByte m (4 * j) = m.getD (4 * j) 0 from by
            unfold padByte; rw [if_pos (by omega)],
            show padByte m (4 * j + 1) = m.getD (4 * j + 1) 0 from by
              unfold padByte; rw [if_pos (by omega)],
            show padByte m (4 * j + 2) = m.getD (4 * j + 2) 0 from by
              unfold padByte; rw [if_pos (by omega)],
            show padByte m (4 * j + 3) = m.getD (4 * j + 3) 0 from by
              unfold padByte; rw [if_pos (by omega)]]
        · rw [List.getD_eq_default _ _ (show m.length ≤ 4 * j from by omega),
            List.getD_eq_default _ _ (show m.length ≤ 4 * j + 1 from by omega),
            List.getD_eq_default _ _ (show m.length ≤ 4 * j + 2 from by omega),
            List.getD_eq_default _ _ (show m.length ≤ 4 * j + 3 from by omega),
            show padByte m (4 * j) = 0 from by
              unfold padByte; rw [if_neg (by omega), if_neg (by omega)],
            show padByte m (4 * j + 1) = 0 from by
              unfold padByte; rw [if_neg (by omega), if_neg (by omega)],
            show padByte m (4 * j + 2) = 0 from by
              unfold padByte; rw [if_neg (by omega), if_neg (by omega)],
            show padByte m (4 * j + 3) = 0 from by
              unfold padByte; rw [if_neg (by omega), if_neg (by omega)]]

theorem padData_length (m : List Nat) (N : Nat) (hm : m.length < 536870904) :
    (MD5.padData ⟨packBytes m, m.length⟩ N).words.length =
      16 * ((m.length + 8) / 64) + 16 := by
  unfold MD5.padData
  simp only []
  rw [show m.length * 8 % 4294967296 / 32 = m.length / 4 from by omega,
    show (m.length * 8 + 64) % 4294967296 / 512 * 16 =
      16 * ((m.length + 8) / 64) from by omega,
    length_setW, length_setW, length_setW, length_packBytes]
  omega

theorem padData_sigBytes (m : List Nat) (N : Nat) :
    (MD5.padData ⟨packBytes m, m.length⟩ N).sigBytes =
      ((MD5.padData ⟨packBytes m, m.length⟩ N).words.length + 1) * 4 := by
  unfold MD5.padData
  simp only []

theorem process_false_padded (W : List Nat) (B N : Nat) (Hs : List Nat)
    (hlen : W.length = 16 * B) (hB : 0 < B) :
    BufferedBlockAlgorithm.process false ⟨⟨W, (W.length + 1) * 4⟩, N, 16, 0⟩ Hs =
      ⟨⟨⟨[], 4⟩, N, 16, 0⟩, foldC (getW W) Hs 0 B,
        ⟨(processBlocks 16 W Hs 0 B).1.take (B * 16), 64 * B⟩⟩ := by
  unfold BufferedBlockAlgorithm.process
  simp only [nBlocksReady_false]
  rw [show (W.length + 1) * 4 / (16 * 4) - 0 = B from by omega,
    if_pos (show B * 16 ≠ 0 from by omega),
    show min (B * 16 * 4) ((W.length + 1) * 4) = 64 * B from by omega]
  have hl := length_processBlocks B W Hs 0 (by omega)
  rw [List.drop_eq_nil_of_le (by omega), processBlocks_snd,
    show (W.length + 1) * 4 - 64 * B = 4 from by omega]

theorem padData_eta (d : WordArray) (n : Nat) :
    MD5.padData d n =
      ⟨(MD5.padData d n).words, ((MD5.padData d n).words.length + 1) * 4⟩ := by
  unfold MD5.padData
  simp only []

theorem doFinalize_canonical (m : List Nat) (N : Nat) (Hs : List Nat)
    (hm : m.length < 536870904) :
    MD5.doFinalize ⟨⟨packBytes m, m.length⟩, N, 16, 0⟩ Hs =
      ((⟨⟨[], 4⟩, N, 16, 0⟩,
        digestSwap (foldC (getW (MD5.padData ⟨packBytes m, m.length⟩ N).words) Hs 0
          ((m.length + 8) / 64 + 1))),
       ⟨digestSwap (foldC (getW (MD5.padData ⟨packBytes m, m.length⟩ N).words) Hs 0
          ((m.length + 8) / 64 + 1)), 16⟩) := by
  unfold MD5.doFinalize
  simp only []
  rw [padData_eta]
  have hlen : (MD5.padData ⟨packBytes m, m.length⟩ N).words.length =
      16 * ((m.length + 8) / 64 + 1) := by
    rw [padData_length _ _ hm]
    omega
  rw [process_false_padded _ _ _ _ hlen (by omega)]

/-! ### Alignment helpers for the incremental-equivalence proof -/

theorem getD_drop (l : List Nat) (n i d : Nat) :
    (l.drop n).getD i d = l.getD (n + i) d := by
  rw [List.getD_eq_getElem?_getD, List.getD_eq_getElem?_getD, List.getElem?_drop]

theorem getW_drop (ws : List Nat) (n j : Nat) :
    getW (ws.drop n) j = getW ws (n + j) :=
  getD_drop ws n j 0

theorem getW_packBytes_front (m1 m2 : List Nat) (j : Nat)
    (h : 4 * j + 3 < m1.length) :
    getW (packBytes (m1 ++ m2)) j = getW (packBytes m1) j := by
  rw [getW_packBytes, getW_packBytes,
    List.getD_append _ _ _ _ (by omega), List.getD_append _ _ _ _ (by omega),
    List.getD_append _ _ _ _ (by omega), List.getD_append _ _ _ _ (by omega)]

theorem getW_packBytes_drop (m : List Nat) (k j : Nat) :
    getW (packBytes (m.drop (64 * k))) j = getW (packBytes m) (16 * k + j) := by
  rw [show 64 * k = 4 * (16 * k) from by omega, ← drop_packBytes, getW_drop]

theorem padByte_drop (m : List Nat) (n i : Nat) (hn : n ≤ m.length) :
    padByte (m.drop n) i = padByte m (n + i) := by
  unfold padByte
  rw [List.length_drop]
  by_cases h1 : i < m.length - n
  · rw [if_pos h1, if_pos (by omega), getD_drop]
  · rw [if_neg h1]
    by_cases h2 : i = m.length - n
    · rw [if_pos h2, if_neg (by omega), if_pos (by omega)]
    · rw [if_neg h2, if_neg (by omega), if_neg (by omega)]

/-! ### Facade operations on canonical states -/

theorem append_canonical (m : List Nat) (N : Nat) (s : List Nat)
    (hm : mask m = m) :
    BufferedBlockAlgorithm.append ⟨⟨packBytes m, m.length⟩, N, 16, 0⟩
      (BufferedBlockAlgorithm._parse s) =
      ⟨⟨packBytes (m ++ mask s), (m ++ mask s).length⟩, N + s.length, 16, 0⟩ := by
  unfold BufferedBlockAlgorithm.append
  rw [_parse_eq]
  simp only []
  rw [concat_canonical, hm]
  rw [show m.length + s.length = (m ++ mask s).length from by
    rw [List.length_append, length_mask]]

theorem update_canonical (m : List Nat) (N : Nat) (Hs : List Nat) (s : List Nat)
    (hm : mask m = m) :
    Hasher.update ⟨⟨⟨packBytes m, m.length⟩, N, 16, 0⟩, Hs⟩ s =
      ⟨⟨⟨packBytes ((m ++ mask s).drop (64 * ((m ++ mask s).length / 64))),
          (m ++ mask s).length - 64 * ((m ++ mask s).length / 64)⟩,
        N + s.length, 16, 0⟩,
        foldC (getW (packBytes (m ++ mask s))) Hs 0 ((m ++ mask s).length / 64)⟩ := by
  unfold Hasher.update
  simp only []
  rw [append_canonical m N s hm, process_false_canonical]

theorem finalize_none_canonical (m : List Nat) (N : Nat) (Hs : List Nat)
    (hm : m.length < 536870904) :
    Hasher.finalize ⟨⟨⟨packBytes m, m.length⟩, N, 16, 0⟩, Hs⟩ none =
      (⟨⟨⟨[], 4⟩, N, 16, 0⟩,
        digestSwap (foldC (getW (MD5.padData ⟨packBytes m, m.length⟩ N).words) Hs 0
          ((m.length + 8) / 64 + 1))⟩,
       ⟨digestSwap (foldC (getW (MD5.padData ⟨packBytes m, m.length⟩ N).words) Hs 0
          ((m.length + 8) / 64 + 1)), 16⟩) := by
  unfold Hasher.finalize
  simp only []
  rw [doFinalize_canonical _ _ _ hm]

theorem finalize_some_canonical (m : List Nat) (N : Nat) (Hs : List Nat)
    (s : List Nat) (hm : mask m = m)
    (hb : (m ++ mask s).length < 536870904) :
    Hasher.finalize ⟨⟨⟨packBytes m, m.length⟩, N, 16, 0⟩, Hs⟩ (some s) =
      (⟨⟨⟨[], 4⟩, N + s.length, 16, 0⟩,
        digestSwap (foldC (getW (MD5.padData ⟨packBytes (m ++ mask s),
            (m ++ mask s).length⟩ (N + s.length)).words) Hs 0
          (((m ++ mask s).length + 8) / 64 + 1))⟩,
       ⟨digestSwap (foldC (getW (MD5.padData ⟨packBytes (m ++ mask s),
            (m ++ mask s).length⟩ (N + s.length)).words) Hs 0
          (((m ++ mask s).length + 8) / 64 + 1)), 16⟩) := by
  unfold Hasher.finalize
  simp only []
  rw [append_canonical m N s hm, doFinalize_canonical _ _ _ hb]

theorem foldC_front (m1 m2 : List Nat) (Hs : List Nat) (k : Nat)
    (hk : 64 * k ≤ m1.length) :
    foldC (getW (packBytes m1)) Hs 0 k =
      foldC (getW (packBytes (m1 ++ m2))) Hs 0 k := by
  apply foldC_cong
  intro j hj
  rw [getW_packBytes_front _ _ _ (by omega)]

theorem foldC_padData_head (m : List Nat) (N : Nat) (Hs : List Nat) (k : Nat)
    (hk : 64 * k ≤ m.length) (hm : m.length < 536870904) :
    foldC (getW (MD5.padData ⟨packBytes m, m.length⟩ N).words) Hs 0 k =
      foldC (getW (packBytes m)) Hs 0 k := by
  apply foldC_cong
  intro j hj
  rw [padData_getW _ _ _ hm, if_neg (by omega), if_neg (by omega), getW_packBytes,
    show padByte m (4 * (0 + j)) = m.getD (4 * (0 + j)) 0 from by
      unfold padByte; rw [if_pos (by omega)],
    show padByte m (4 * (0 + j) + 1) = m.getD (4 * (0 + j) + 1) 0 from by
      unfold padByte; rw [if_pos (by omega)],
    show padByte m (4 * (0 + j) + 2) = m.getD (4 * (0 + j) + 2) 0 from by
      unfold padByte; rw [if_pos (by omega)],
    show padByte m (4 * (0 + j) + 3) = m.getD (4 * (0 + j) + 3) 0 from by
      unfold padByte; rw [if_pos (by omega)]]

theorem foldC_padData_tail (m : List Nat) (N : Nat) (Hs : List Nat) (k : Nat)
    (hk : 64 * k ≤ m.length) (hm : m.length < 536870904) :
    foldC (getW (MD5.padData ⟨packBytes m, m.length⟩ N).words) Hs (16 * k)
        (((m.drop (64 * k)).length + 8) / 64 + 1) =
      foldC (getW (MD5.padData ⟨packBytes (m.drop (64 * k)),
          (m.drop (64 * k)).length⟩ N).words) Hs 0
        (((m.drop (64 * k)).length + 8) / 64 + 1) := by
  apply foldC_cong
  intro j hj
  simp only [Nat.zero_add]
  rw [padData_getW _ _ _ hm,
    padData_getW _ _ _ (show (m.drop (64 * k)).length < 536870904 from by
      rw [List.length_drop]; omega)]
  have hr : (m.drop (64 * k)).length = m.length - 64 * k := List.length_drop _ _
  rw [hr] at hj
  by_cases h14 : j = 16 * (((m.drop (64 * k)).length + 8) / 64) + 14
  · rw [if_pos (by rw [hr] at h14; omega), if_pos h14]
  · rw [if_neg (by rw [hr] at h14; omega), if_neg h14]
    by_cases h15 : j = 16 * (((m.drop (64 * k)).length + 8) / 64) + 15
    · rw [if_pos (by rw [hr] at h15; omega), if_pos h15]
    · rw [if_neg (by rw [hr] at h15; omega), if_neg h15]
      rw [padByte_drop _ _ _ (by omega), padByte_drop _ _ _ (by omega),
        padByte_drop _ _ _ (by omega), padByte_drop _ _ _ (by omega),
        show 64 * k + 4 * j = 4 * (16 * k + j) from by omega,
        show 64 * k + (4 * j + 1) = 4 * (16 * k + j) + 1 from by omega,
        show 64 * k + (4 * j + 2) = 4 * (16 * k + j) + 2 from by omega,
        show 64 * k + (4 * j + 3) = 4 * (16 * k + j) + 3 from by omega]

theorem fold_finalize_shift (m : List Nat) (Hs : List Nat) (N k : Nat)
    (hk : 64 * k ≤ m.length) (hm : m.length < 536870904) :
    foldC (getW (MD5.padData ⟨packBytes (m.drop (64 * k)),
        (m.drop (64 * k)).length⟩ N).words)
      (foldC (getW (packBytes m)) Hs 0 k) 0
      (((m.drop (64 * k)).length + 8) / 64 + 1) =
    foldC (getW (MD5.padData ⟨packBytes m, m.length⟩ N).words) Hs 0
      ((m.length + 8) / 64 + 1) := by
  rw [show (m.length + 8) / 64 + 1 = k + (((m.drop (64 * k)).length + 8) / 64 + 1) from by
    rw [List.length_drop]; omega]
  rw [foldC_split (getW (MD5.padData ⟨packBytes m, m.length⟩ N).words)
      (((m.drop (64 * k)).length + 8) / 64 + 1) k Hs 0,
    foldC_padData_head m N Hs k hk hm,
    show (0 : Nat) + 16 * k = 16 * k from by omega]
  exact (foldC_padData_tail m N _ k hk hm).symm

/-- C2 (bounded): incremental equivalence holds in the regime where the
padding index arithmetic of `MD5.doFinalize` does not wrap. For every
byte sequence and every split `s1 ++ s2` — including empty parts and
splits that land mid-block — with total length below `2^29 - 8` bytes,
`update(s1); update(s2); finalize()` on a fresh hasher produces the same
16-byte digest as `finalize(s1 ++ s2)` in one step on a fresh hasher.
From `2^29` bytes on, the one-shot call mis-pads (the `>>> 5` / `>>> 9`
ToUint32 coercions wrap the bit length) and the paths diverge, as the
claim's counterexample shows. -/
theorem update_update_finalize_eq (s1 s2 : List Nat)
    (h : s1.length + s2.length < 536870904) :
    (Hasher.finalize (Hasher.update (Hasher.update newHasher s1) s2) none).2 =
    (Hasher.finalize newHasher (some (s1 ++ s2))).2 := by
  have hnew : newHasher =
      ⟨⟨⟨packBytes [], ([] : List Nat).length⟩, 0, 16, 0⟩, MD5.doReset⟩ := rfl
  rw [hnew, update_canonical [] 0 MD5.doReset s1 rfl,
    finalize_some_canonical [] 0 MD5.doReset (s1 ++ s2) rfl
      (by rw [List.nil_append, length_mask, List.length_append]; omega)]
  simp only [List.nil_append, Nat.zero_add, List.length_nil, mask_append,
    List.length_append, length_mask]
  rw [show s1.length - 64 * (s1.length / 64) =
    ((mask s1).drop (64 * (s1.length / 64))).length from by
      rw [List.length_drop, length_mask]]
  rw [update_canonical _ _ _ s2 (by rw [mask_drop, mask_mask])]
  rw [← @List.drop_append_of_le_length _ (mask s1) (mask s2) (64 * (s1.length / 64))
    (show 64 * (s1.length / 64) ≤ (mask s1).length from by rw [length_mask]; omega)]
  rw [show (List.drop (64 * (s1.length / 64)) (mask s1 ++ mask s2)).length -
      64 * ((List.drop (64 * (s1.length / 64)) (mask s1 ++ mask s2)).length / 64) =
    ((List.drop (64 * (s1.length / 64)) (mask s1 ++ mask s2)).drop
      (64 * ((List.drop (64 * (s1.length / 64)) (mask s1 ++ mask s2)).length / 64))).length
    from (List.length_drop _ _).symm]
  rw [finalize_none_canonical _ _ _
    (show ((List.drop (64 * (s1.length / 64)) (mask s1 ++ mask s2)).drop
        (64 * ((List.drop (64 * (s1.length / 64)) (mask s1 ++ mask s2)).length /
          64))).length < 536870904 from by
      rw [List.length_drop, List.length_drop, List.length_append,
        length_mask, length_mask]
      omega)]
  simp only []
  rw [fold_finalize_shift (List.drop (64 * (s1.length / 64)) (mask s1 ++ mask s2)) _ _
    ((List.drop (64 * (s1.length / 64)) (mask s1 ++ mask s2)).length / 64) (by omega)
    (by rw [List.length_drop, List.length_append, length_mask, length_mask]; omega)]
  rw [foldC_front (mask s1) (mask s2) MD5.doReset (s1.length / 64)
    (show 64 * (s1.length / 64) ≤ (mask s1).length from by rw [length_mask]; omega)]
  rw [fold_finalize_shift (mask s1 ++ mask s2) MD5.doReset (s1.length + s2.length)
    (s1.length / 64)
    (show 64 * (s1.length / 64) ≤ (mask s1 ++ mask s2).length from by
      rw [List.length_append, length_mask]; omega)
    (show (mask s1 ++ mask s2).length < 536870904 from by
      rw [List.length_append, length_mask, length_mask]; omega)]
  rw [show (mask s1 ++ mask s2).length = s1.length + s2.length from by
    rw [List.length_append, length_mask, length_mask]]

/-- C3 (amended): after padding and writing the length suffix,
`MD5.doFinalize` calls `process` with `flush = false`, not `flush = true`;
because `sigBytes` was set to `(words.length + 1) * 4`, that call still
counts exactly enough blocks to cover every padded word whenever the
buffered byte count is below `2^29 - 8` (in incremental use it is always
below 64) — the drained buffer's word list is empty and
`16 × nBlocksReady` equals the padded word count. From `2^29` buffered
bytes on, the wrapped padding indices stop extending the word list to a
block boundary and the floor count leaves words behind. -/
theorem finalize_flush_false_drains_all_blocks (m : List Nat) (N : Nat)
    (Hs : List Nat) (hm : m.length < 536870904) :
    (MD5.doFinalize ⟨⟨packBytes m, m.length⟩, N, 16, 0⟩ Hs).1.1._data.words = [] ∧
    16 * nBlocksReady false
        (MD5.padData ⟨packBytes m, m.length⟩ N).sigBytes (16 * 4) 0 =
      (MD5.padData ⟨packBytes m, m.length⟩ N).words.length := by
  constructor
  · rw [doFinalize_canonical _ _ _ hm]
  · rw [nBlocksReady_false, padData_sigBytes, padData_length _ _ hm]
    omega

/-- Closed witness for `finalize_flush_false_drains_all_blocks` on the
63-byte buffer of zeros. -/
theorem finalize_flush_false_drains_witness :
    (List.replicate 63 (0 : Nat)).length < 536870904 ∧
    ((MD5.doFinalize ⟨⟨packBytes (List.replicate 63 0),
        (List.replicate 63 (0 : Nat)).length⟩, 63, 16, 0⟩
      MD5.doReset).1.1._data.words = [] ∧
     16 * nBlocksReady false
        (MD5.padData ⟨packBytes (List.replicate 63 0),
          (List.replicate 63 (0 : Nat)).length⟩ 63).sigBytes (16 * 4) 0 =
      (MD5.padData ⟨packBytes (List.replicate 63 0),
        (List.replicate 63 (0 : Nat)).length⟩ 63).words.length) :=
  ⟨by decide, finalize_flush_false_drains_all_blocks (List.replicate 63 0) 63
    MD5.doReset (by decide)⟩

/-- Closed witness for `update_update_finalize_eq` at the concrete split
of the three ASCII bytes of "abc" into "a" and "bc". -/
theorem update_update_finalize_eq_witness :
    [97].length + [98, 99].length < 536870904 ∧
    (Hasher.finalize (Hasher.update (Hasher.update newHasher [97]) [98, 99])
        none).2 =
      (Hasher.finalize newHasher (some ([97] ++ [98, 99]))).2 :=
  ⟨by decide, update_update_finalize_eq [97] [98, 99] (by decide)⟩

theorem getD_replicate_zero (n i : Nat) :
    (List.replicate n (0 : Nat)).getD i 0 = 0 := by
  rw [List.getD_eq_getElem?_getD, List.getElem?_replicate]
  by_cases h : i < n
  · rw [if_pos h]
    rfl
  · rw [if_neg h]
    rfl

theorem bigMsg_getD_zero : bigMsg.getD 0 0 = 1 := rfl

theorem bigMsg_getD_succ (i : Nat) : bigMsg.getD (i + 1) 0 = 0 := by
  unfold bigMsg
  rw [List.getD_cons_succ]
  exact getD_replicate_zero _ _

theorem mask_bigMsg : mask bigMsg = bigMsg := by
  unfold mask bigMsg
  rw [List.map_cons, List.map_replicate]

theorem length_bigMsg : bigMsg.length = 536870912 := by
  unfold bigMsg
  rw [List.length_cons, List.length_replicate]

theorem getW_packBytes_bigMsg_zero : getW (packBytes bigMsg) 0 = 16777216 := by
  rw [getW_packBytes,
    show (4 : Nat) * 0 = 0 from by norm_num,
    show (4 : Nat) * 0 + 1 = 0 + 1 from by norm_num,
    show (4 : Nat) * 0 + 2 = 1 + 1 from by norm_num,
    show (4 : Nat) * 0 + 3 = 2 + 1 from by norm_num,
    bigMsg_getD_zero, bigMsg_getD_succ, bigMsg_getD_succ, bigMsg_getD_succ]
  unfold packW
  norm_num

theorem padData_bigMsg :
    (MD5.padData ⟨packBytes bigMsg, 536870912⟩ 536870912).words =
      setW (setW (setW (packBytes bigMsg) 0
        (getW (packBytes bigMsg) 0 ||| 2147483648)) 15 16777216) 14 0 := by
  unfold MD5.padData
  simp only []
  rw [show (536870912 : Nat) * 8 % 4294967296 / 32 = 0 from by norm_num,
    show (24 : Nat) - 536870912 * 8 % 32 = 24 from by norm_num,
    show ((536870912 : Nat) * 8 + 64) % 4294967296 / 512 * 16 + 15 = 15 from by
      norm_num,
    show ((536870912 : Nat) * 8 + 64) % 4294967296 / 512 * 16 + 14 = 14 from by
      norm_num,
    show (128 : Nat) * 2 ^ 24 = 2147483648 from by norm_num,
    show swap32 (536870912 * 8 / 4294967296) = 16777216 from by decide,
    show swap32 (536870912 * 8) = 0 from by decide]

/-- C2 counterexample: the program violates the claimed incremental
equivalence at large inputs. On the 2^29-byte message `bigMsg` (one 1
byte then zeros), the one-shot call `finalize(bigMsg)` reaches
`MD5.doFinalize` with the whole message still buffered (the first
conjunct reduces the facade call to the canonical packed buffer), and its
bit length `2^29 * 8 = 2^32` wraps to 0 under the ToUint32 coercions of
the padding indices (`>>> 5` and `>>> 9`): the 0x80 pad bit is OR-ed
into message word 0 — turning 0x01000000 into 0x81000000 and destroying
message data — the 64-bit length overwrites words 14 and 15 of the FIRST
message block, and the word list is not extended at all (it stays at
2^27 = 134217728 words instead of gaining a padded final block). The
incremental path instead compresses the unmodified packed message words
(second conjunct) and pads a fresh block afterwards, so the two paths
feed different words to the compression function and the claimed digest
equality fails for this message. -/
theorem one_shot_pad_wraps :
    (Hasher.finalize newHasher (some bigMsg)).2 =
      (MD5.doFinalize ⟨⟨packBytes bigMsg, 536870912⟩, 536870912, 16, 0⟩
        MD5.doReset).2 ∧
    (Hasher.update newHasher bigMsg).hash =
      foldC (getW (packBytes bigMsg)) MD5.doReset 0 8388608 ∧
    getW (packBytes bigMsg) 0 = 16777216 ∧
    getW (MD5.padData ⟨packBytes bigMsg, 536870912⟩ 536870912).words 0 =
      2164260864 ∧
    getW (MD5.padData ⟨packBytes bigMsg, 536870912⟩ 536870912).words 14 = 0 ∧
    getW (MD5.padData ⟨packBytes bigMsg, 536870912⟩ 536870912).words 15 =
      16777216 ∧
    (MD5.padData ⟨packBytes bigMsg, 536870912⟩ 536870912).words.length =
      134217728 := by
  have hnew : newHasher =
      ⟨⟨⟨packBytes [], ([] : List Nat).length⟩, 0, 16, 0⟩, MD5.doReset⟩ := rfl
  refine ⟨?_, ?_, getW_packBytes_bigMsg_zero, ?_, ?_, ?_, ?_⟩
  · rw [hnew]
    unfold Hasher.finalize
    simp only []
    rw [append_canonical [] 0 bigMsg rfl]
    simp only [List.nil_append, mask_bigMsg, length_bigMsg, Nat.zero_add]
  · rw [hnew, update_canonical [] 0 MD5.doReset bigMsg rfl]
    simp only [List.nil_append, mask_bigMsg, length_bigMsg]
  · rw [padData_bigMsg, getW_setW_ne _ 14 0 _ (by omega),
      getW_setW_ne _ 15 0 _ (by omega), getW_setW_self,
      getW_packBytes_bigMsg_zero]
    decide
  · rw [padData_bigMsg, getW_setW_self]
  · rw [padData_bigMsg, getW_setW_ne _ 14 15 _ (by omega), getW_setW_self]
  · rw [padData_bigMsg, length_setW, length_setW, length_setW,
      length_packBytes, length_bigMsg]
    omega

/-- C4 (amended): besides the running hash, `doProcessBlock` modifies
exactly the 16 words `M[offset .. offset+16)` of the input word array,
endian-swapping them in place; every other word of `M` is unchanged. -/
theorem doProcessBlock_frame (M : List Nat) (offset : Nat) (Hs : List Nat)
    (j : Nat) :
    getW (MD5.doProcessBlock M offset Hs).1 j =
      if offset ≤ j ∧ j < offset + 16 then swap32 (getW M j) else getW M j := by
  rw [doProcessBlock_fst, getW_swapRangeN]

theorem length_bytesOf (wa : WordArray) : (bytesOf wa).length = wa.sigBytes := by
  unfold bytesOf
  simp

/-- C5 (amended): the `WordSequence` invariant `sigBytes ≤ 4 × word-count`
holds for the freshly reset buffer and is preserved by `concat` (the data
operation of `append`) and by `process`; `doFinalize` does not preserve it
(see the counterexample). -/
theorem invariant_reset_append_process :
    waInv (⟨[], 0⟩ : WordArray) ∧
    (∀ a b : WordArray, waInv (a.concat b)) ∧
    (∀ (fl : Bool) (buf : BufferedBlockAlgorithm) (Hs : List Nat),
      waInv buf._data →
      waInv ((BufferedBlockAlgorithm.process fl buf Hs).buf._data)) := by
  refine ⟨by decide, ?_, ?_⟩
  · intro a b
    show a.sigBytes + b.sigBytes ≤ 4 * (packBytes (bytesOf a ++ bytesOf b)).length
    rw [length_packBytes, List.length_append, length_bytesOf, length_bytesOf]
    omega
  · intro fl buf Hs hinv
    unfold BufferedBlockAlgorithm.process
    simp only []
    by_cases h0 : nBlocksReady fl buf._data.sigBytes (buf.blockSize * 4)
        buf._minBufferSize * buf.blockSize ≠ 0
    · rw [if_pos h0]
      show buf._data.sigBytes -
          min (nBlocksReady fl buf._data.sigBytes (buf.blockSize * 4)
            buf._minBufferSize * buf.blockSize * 4) buf._data.sigBytes ≤
        4 * ((processBlocks buf.blockSize buf._data.words Hs 0
          (nBlocksReady fl buf._data.sigBytes (buf.blockSize * 4)
            buf._minBufferSize)).1.drop
          (nBlocksReady fl buf._data.sigBytes (buf.blockSize * 4)
            buf._minBufferSize * buf.blockSize)).length
      have h2 := length_le_processBlocks buf.blockSize
        (nBlocksReady fl buf._data.sigBytes (buf.blockSize * 4) buf._minBufferSize)
        buf._data.words Hs 0
      have h3 : buf._data.sigBytes ≤ 4 * buf._data.words.length := hinv
      rw [List.length_drop]
      omega
    · rw [if_neg h0]
      exact hinv

/-- Closed witness for `invariant_reset_append_process`: the `process`
preservation clause applied to a concrete one-word buffer. -/
theorem invariant_reset_append_process_witness :
    waInv (⟨[17], 2⟩ : WordArray) ∧
    waInv ((BufferedBlockAlgorithm.process false ⟨⟨[17], 2⟩, 2, 16, 0⟩
      MD5.doReset).buf._data) :=
  ⟨by decide, invariant_reset_append_process.2.2 false ⟨⟨[17], 2⟩, 2, 16, 0⟩
    MD5.doReset (by decide)⟩

/-- C6: `process(flush = false)` never consumes a partial block — the
consumed bytes (the returned `sigBytes`, which is exactly what `_data`'s
`sigBytes` shrinks by) are a multiple of the block size in bytes — and
`process(flush = true)` consumes every remaining buffered byte, returning
a `WordSequence` whose byte count equals the buffer's `sigBytes` at call
time and leaving the buffer's `sigBytes` at 0. -/
theorem process_consumption (buf : BufferedBlockAlgorithm) (Hs : List Nat) :
    ((BufferedBlockAlgorithm.process false buf Hs).buf._data.sigBytes +
        (BufferedBlockAlgorithm.process false buf Hs).ret.sigBytes =
      buf._data.sigBytes ∧
     (buf.blockSize * 4) ∣ (BufferedBlockAlgorithm.process false buf Hs).ret.sigBytes) ∧
    (0 < buf.blockSize →
      (BufferedBlockAlgorithm.process true buf Hs).ret.sigBytes =
        buf._data.sigBytes ∧
      (BufferedBlockAlgorithm.process true buf Hs).buf._data.sigBytes = 0) := by
  constructor
  · have hle : nBlocksReady false buf._data.sigBytes (buf.blockSize * 4)
        buf._minBufferSize * buf.blockSize * 4 ≤ buf._data.sigBytes := by
      rw [nBlocksReady_false, Nat.mul_assoc]
      calc (buf._data.sigBytes / (buf.blockSize * 4) - buf._minBufferSize) *
            (buf.blockSize * 4)
          ≤ buf._data.sigBytes / (buf.blockSize * 4) * (buf.blockSize * 4) :=
            Nat.mul_le_mul_right _ (Nat.sub_le _ _)
        _ ≤ buf._data.sigBytes := Nat.div_mul_le_self _ _
    have hmin : min (nBlocksReady false buf._data.sigBytes (buf.blockSize * 4)
        buf._minBufferSize * buf.blockSize * 4) buf._data.sigBytes =
        nBlocksReady false buf._data.sigBytes (buf.blockSize * 4)
          buf._minBufferSize * buf.blockSize * 4 := Nat.min_eq_left hle
    unfold BufferedBlockAlgorithm.process
    simp only []
    by_cases h0 : nBlocksReady false buf._data.sigBytes (buf.blockSize * 4)
        buf._minBufferSize * buf.blockSize ≠ 0
    · rw [if_pos h0]
      constructor
      · show buf._data.sigBytes - min _ _ + min _ _ = buf._data.sigBytes
        omega
      · show (buf.blockSize * 4) ∣ min _ _
        rw [hmin]
        exact ⟨nBlocksReady false buf._data.sigBytes (buf.blockSize * 4)
          buf._minBufferSize, by ring⟩
    · rw [if_neg h0]
      push_neg at h0
      constructor
      · show buf._data.sigBytes + min _ _ = buf._data.sigBytes
        rw [h0]
        omega
      · show (buf.blockSize * 4) ∣ min _ _
        rw [h0]
        simp
  · intro hbs
    have hge : buf._data.sigBytes ≤ nBlocksReady true buf._data.sigBytes
        (buf.blockSize * 4) buf._minBufferSize * buf.blockSize * 4 := by
      rw [nBlocksReady_true, Nat.mul_assoc]
      rw [show (buf._data.sigBytes + buf.blockSize * 4 - 1) / (buf.blockSize * 4) *
        (buf.blockSize * 4) = buf.blockSize * 4 *
        ((buf._data.sigBytes + buf.blockSize * 4 - 1) / (buf.blockSize * 4)) from by ring]
      have h1 := Nat.div_add_mod (buf._data.sigBytes + buf.blockSize * 4 - 1)
        (buf.blockSize * 4)
      have h2 := Nat.mod_lt (buf._data.sigBytes + buf.blockSize * 4 - 1)
        (show 0 < buf.blockSize * 4 from by omega)
      omega
    have hmin : min (nBlocksReady true buf._data.sigBytes (buf.blockSize * 4)
        buf._minBufferSize * buf.blockSize * 4) buf._data.sigBytes =
        buf._data.sigBytes := Nat.min_eq_right hge
    unfold BufferedBlockAlgorithm.process
    simp only []
    by_cases h0 : nBlocksReady true buf._data.sigBytes (buf.blockSize * 4)
        buf._minBufferSize * buf.blockSize ≠ 0
    · rw [if_pos h0]
      constructor
      · show min _ _ = buf._data.sigBytes
        exact hmin
      · show buf._data.sigBytes - min _ _ = 0
        rw [hmin]
        omega
    · rw [if_neg h0]
      push_neg at h0
      have hz : buf._data.sigBytes = 0 := by
        rcases Nat.mul_eq_zero.mp h0 with h | h
        · rw [nBlocksReady_true] at h
          omega
        · omega
      constructor
      · show min _ _ = buf._data.sigBytes
        omega
      · show buf._data.sigBytes = 0
        exact hz

/-- Closed witness for `process_consumption`: the flush clause applied to
a concrete 4-byte buffer with the standard block size. -/
theorem process_consumption_witness :
    0 < (⟨⟨[0x61626380], 4⟩, 4, 16, 0⟩ : BufferedBlockAlgorithm).blockSize ∧
    ((BufferedBlockAlgorithm.process true ⟨⟨[0x61626380], 4⟩, 4, 16, 0⟩
        MD5.doReset).ret.sigBytes =
      (⟨⟨[0x61626380], 4⟩, 4, 16, 0⟩ : BufferedBlockAlgorithm)._data.sigBytes ∧
     (BufferedBlockAlgorithm.process true ⟨⟨[0x61626380], 4⟩, 4, 16, 0⟩
        MD5.doReset).buf._data.sigBytes = 0) :=
  ⟨by decide, (process_consumption ⟨⟨[0x61626380], 4⟩, 4, 16, 0⟩ MD5.doReset).2
    (by decide)⟩

theorem config_process (fl : Bool) (b : BufferedBlockAlgorithm) (Hs : List Nat) :
    (BufferedBlockAlgorithm.process fl b Hs).buf.blockSize = b.blockSize ∧
    (BufferedBlockAlgorithm.process fl b Hs).buf._minBufferSize = b._minBufferSize := by
  unfold BufferedBlockAlgorithm.process
  simp only []
  by_cases h : nBlocksReady fl b._data.sigBytes (b.blockSize * 4)
      b._minBufferSize * b.blockSize ≠ 0
  · rw [if_pos h]
    exact ⟨rfl, rfl⟩
  · rw [if_neg h]
    exact ⟨rfl, rfl⟩

theorem config_doFinalize (b : BufferedBlockAlgorithm) (Hs : List Nat) :
    (MD5.doFinalize b Hs).1.1.blockSize = b.blockSize ∧
    (MD5.doFinalize b Hs).1.1._minBufferSize = b._minBufferSize := by
  unfold MD5.doFinalize
  simp only []
  exact config_process false _ Hs

theorem config_applyOp (st : HasherState) (op : HOp) :
    (applyOp st op).buffer.blockSize = st.buffer.blockSize ∧
    (applyOp st op).buffer._minBufferSize = st.buffer._minBufferSize := by
  cases op with
  | upd s => exact config_process false _ _
  | fin o =>
    cases o with
    | none => exact config_doFinalize st.buffer st.hash
    | some s => exact config_doFinalize _ _

theorem config_applyOps :
    ∀ (ops : List HOp) (st : HasherState),
      (applyOps st ops).buffer.blockSize = st.buffer.blockSize ∧
      (applyOps st ops).buffer._minBufferSize = st.buffer._minBufferSize
  | [], _ => ⟨rfl, rfl⟩
  | op :: rest, st => by
    obtain ⟨h1, h2⟩ := config_applyOps rest (applyOp st op)
    obtain ⟨g1, g2⟩ := config_applyOp st op
    exact ⟨h1.trans g1, h2.trans g2⟩

/-- C9: reset is idempotent with respect to prior use. For every prior
sequence of `update` / `finalize` operations on a hasher instance,
`reset()` followed by `finalize` yields exactly what `finalize` yields on
a freshly constructed hasher (state and digest alike). -/
theorem reset_then_finalize_eq_fresh (ops : List HOp) (o : Option (List Nat)) :
    Hasher.finalize (Hasher.reset (applyOps newHasher ops)) o =
      Hasher.finalize newHasher o := by
  obtain ⟨h1, h2⟩ := config_applyOps ops newHasher
  suffices h : Hasher.reset (applyOps newHasher ops) = newHasher by rw [h]
  have e : Hasher.reset (applyOps newHasher ops) =
      ⟨⟨⟨[], 0⟩, 0, (applyOps newHasher ops).buffer.blockSize,
        (applyOps newHasher ops).buffer._minBufferSize⟩, MD5.doReset⟩ := rfl
  rw [e, h1, h2]
  rfl

/-- C10: when the buffer holds fewer significant bytes than one block and
`_minBufferSize` is 0, `process(flush = false)` is a complete no-op on the
observable state — buffer words, `sigBytes`, `_nDataBytes` and the hash
are all unchanged — and returns a `WordSequence` of byte count 0. -/
theorem process_noop_below_block (buf : BufferedBlockAlgorithm) (Hs : List Nat)
    (h1 : buf._minBufferSize = 0) (h2 : buf._data.sigBytes < buf.blockSize * 4) :
    BufferedBlockAlgorithm.process false buf Hs = ⟨buf, Hs, ⟨[], 0⟩⟩ := by
  unfold BufferedBlockAlgorithm.process
  simp only [nBlocksReady_false]
  rw [h1, Nat.sub_zero, Nat.div_eq_of_lt h2, Nat.zero_mul,
    if_neg (by omega),
    show min (0 * 4) buf._data.sigBytes = 0 from by omega]

/-- Closed witness for `process_noop_below_block` at a concrete one-word,
one-byte buffer. -/
theorem process_noop_below_block_witness :
    (⟨⟨[80], 1⟩, 1, 16, 0⟩ : BufferedBlockAlgorithm)._minBufferSize = 0 ∧
    (⟨⟨[80], 1⟩, 1, 16, 0⟩ : BufferedBlockAlgorithm)._data.sigBytes <
      (⟨⟨[80], 1⟩, 1, 16, 0⟩ : BufferedBlockAlgorithm).blockSize * 4 ∧
    BufferedBlockAlgorithm.process false ⟨⟨[80], 1⟩, 1, 16, 0⟩ MD5.doReset =
      ⟨⟨⟨[80], 1⟩, 1, 16, 0⟩, MD5.doReset, ⟨[], 0⟩⟩ :=
  ⟨rfl, by decide, process_noop_below_block ⟨⟨[80], 1⟩, 1, 16, 0⟩ MD5.doReset rfl
    (by decide)⟩
